import Mathlib

/-!
Verification development for the AR ball-in-maze repository.

The core gameplay code lives in `Ball.hpp` (classes `Maze` and `Ball`) and
`Smoothing/smoothing.cpp` (`PoseSmoother`).  This file gives a shallow
embedding of that code and proves, or refutes, the specification claims
about it.

Modelling conventions:
* `float`/`double` arithmetic of the ball physics and the maze geometry is
  idealized as exact rational arithmetic (`ℚ`).
* `cv::Mat` 3x3 rotation matrices become `Matrix (Fin 3) (Fin 3) ℚ`.
  `cv::Rodrigues` is an external OpenCV routine; functions that receive an
  `rvec` and immediately convert it are therefore parameterized directly by
  the resulting rotation matrix.
* The C style cast `(int)(q)` truncates toward zero; `ratTrunc` models it.
* `std::rand()` is an implementation defined stream of numbers fixed by the
  seed passed to `std::srand`; the generator is parameterized by that
  stream (`rng : ℕ → ℕ`, the successive values returned by `rand()`).
* The pose smoother works with quaternions over `ℝ`; the external
  conversions rvec -> matrix -> quaternion and back (cv::Rodrigues,
  glm::quat_cast, glm::mat3_cast) are modelled as the identity at the
  quaternion level, keeping the sign ambiguity of the quaternion double
  cover in the input.  glm::slerp (external library code) is modelled as
  the standard shortest-arc spherical interpolation formula, which is what
  the spec glossary specifies for SLERP.
-/

/-- Planar vector, modelling `glm::vec2` with exact rationals. -/
structure V2 where
  x : ℚ
  y : ℚ
deriving DecidableEq

/-- The C style cast `(int)q`: truncation toward zero. -/
def ratTrunc (q : ℚ) : ℤ :=
  if 0 ≤ q then ⌊q⌋ else -⌊-q⌋

/-- 3x3 rational matrix, modelling a `cv::Mat` of type CV_64F. -/
abbrev M3 : Type := Matrix (Fin 3) (Fin 3) ℚ

/-- One maze cell: four wall flags and the generation-time visited flag.
Mirrors `Maze::Cell` (Ball.hpp lines 22-25) including its defaults. -/
structure Cell where
  wN : Bool := true
  wS : Bool := true
  wE : Bool := true
  wW : Bool := true
  visited : Bool := false
deriving DecidableEq

/-- The maze: dimensions, cell geometry and the row-major grid.
Mirrors the data members of class `Maze` (Ball.hpp lines 16-26). -/
structure Maze where
  w : ℕ
  h : ℕ
  cellW : ℚ
  cellH : ℚ
  wallThick : ℚ
  grid : List Cell
deriving DecidableEq

/-- The `Maze` constructor (Ball.hpp lines 28-33): grid of default cells,
cell sizes obtained by dividing the sheet size by the cell counts. -/
def Maze.mk0 (width height : ℕ) (sheetWidth sheetHeight wallThickness : ℚ) : Maze :=
  { w := width, h := height,
    cellW := sheetWidth / (width : ℚ), cellH := sheetHeight / (height : ℚ),
    wallThick := wallThickness,
    grid := List.replicate (width * height) {} }

/-- The read side of `Maze::at` (Ball.hpp lines 35-45) on a raw grid:
clamp the indices into range, then read `grid[y*w+x]`.  Out-of-range
vector access (possible only for an empty grid) is modelled by the
default cell. -/
def cellG (w h : ℕ) (grid : List Cell) (x y : ℤ) : Cell :=
  let x1 : ℤ := if x < 0 then 0 else x
  let x2 : ℤ := if x1 ≥ (w : ℤ) then (w : ℤ) - 1 else x1
  let y1 : ℤ := if y < 0 then 0 else y
  let y2 : ℤ := if y1 ≥ (h : ℤ) then (h : ℤ) - 1 else y1
  grid.getD (y2 * (w : ℤ) + x2).toNat {}

/-- `Maze::at` (Ball.hpp lines 35-45). -/
def Maze.atCell (m : Maze) (x y : ℤ) : Cell :=
  cellG m.w m.h m.grid x y

/-- A write through `Maze::at` (e.g. `at(x,y).wE = false`): clamp the
indices, then replace `grid[y*w+x]` by the modified cell. -/
def updCell (w h : ℕ) (grid : List Cell) (x y : ℤ) (f : Cell → Cell) : List Cell :=
  let x1 : ℤ := if x < 0 then 0 else x
  let x2 : ℤ := if x1 ≥ (w : ℤ) then (w : ℤ) - 1 else x1
  let y1 : ℤ := if y < 0 then 0 else y
  let y2 : ℤ := if y1 ≥ (h : ℤ) then (h : ℤ) - 1 else y1
  let i : ℕ := (y2 * (w : ℤ) + x2).toNat
  grid.set i (f (grid.getD i {}))

/-- The neighbour direction table of `Maze::generate`
(Ball.hpp line 57): south (+y), east (+x), north (-y), west (-x). -/
def mazeDirs : List (ℤ × ℤ) := [(0, 1), (1, 0), (0, -1), (-1, 0)]

/-- The unvisited in-range neighbours of a cell, in direction-table order
(Ball.hpp lines 56-63). -/
def unvisitedNeighbors (w h : ℕ) (grid : List Cell) (cx cy : ℤ) : List (ℤ × ℤ) :=
  mazeDirs.filterMap (fun d =>
    let nx := cx + d.1
    let ny := cy + d.2
    if 0 ≤ nx ∧ nx < (w : ℤ) ∧ 0 ≤ ny ∧ ny < (h : ℤ) ∧
        (cellG w h grid nx ny).visited = false
    then some (nx, ny) else none)

/-- Wall carving between the current cell and the chosen neighbour
(Ball.hpp lines 68-71): clear the shared wall on both sides. -/
def carveWalls (w h : ℕ) (grid : List Cell) (cx cy nx ny : ℤ) : List Cell :=
  if nx > cx then
    updCell w h (updCell w h grid cx cy (fun c => { c with wE := false })) nx ny
      (fun c => { c with wW := false })
  else if nx < cx then
    updCell w h (updCell w h grid cx cy (fun c => { c with wW := false })) nx ny
      (fun c => { c with wE := false })
  else if ny > cy then
    updCell w h (updCell w h grid cx cy (fun c => { c with wS := false })) nx ny
      (fun c => { c with wN := false })
  else if ny < cy then
    updCell w h (updCell w h grid cx cy (fun c => { c with wN := false })) nx ny
      (fun c => { c with wS := false })
  else grid

/-- The main loop of `Maze::generate` (Ball.hpp lines 54-77), with an
explicit fuel argument that makes the recursion structural; `generate`
supplies enough fuel for the loop to run until the stack empties.
`rng k` is the value returned by the (k+1)-th call to `std::rand()`. -/
def genLoop (rng : ℕ → ℕ) (w h : ℕ) :
    ℕ → List Cell → List (ℤ × ℤ) → ℕ → List Cell
  | 0, grid, _, _ => grid
  | _ + 1, grid, [], _ => grid
  | fuel + 1, grid, (cx, cy) :: rest, k =>
    let neighbors := unvisitedNeighbors w h grid cx cy
    if neighbors.length = 0 then
      genLoop rng w h fuel grid rest k
    else
      let next := neighbors.getD (rng k % neighbors.length) (cx, cy)
      let grid1 := carveWalls w h grid cx cy next.1 next.2
      let grid2 := updCell w h grid1 next.1 next.2 (fun c => { c with visited := true })
      genLoop rng w h fuel grid2 (next :: (cx, cy) :: rest) (k + 1)

/-- `Maze::generate` (Ball.hpp lines 47-78).  The function first calls
`std::srand(std::time(0))`, i.e. it reseeds the C RNG from the wall
clock on every call; `rng` is the stream of `std::rand()` values
determined by that seed.  The fuel `2*w*h + 1` strictly dominates the
loop measure `2*(number of unvisited cells) + stack length`, so the
loop always terminates by emptying its stack. -/
def Maze.generate (rng : ℕ → ℕ) (m : Maze) : Maze :=
  let grid0 := updCell m.w m.h m.grid 0 0 (fun c => { c with visited := true })
  { m with grid := genLoop rng m.w m.h (2 * m.w * m.h + 1) grid0 [(0, 0)] 0 }

/-- Vertices of the passage graph of a `w × h` maze. -/
abbrev MazeVertex (w h : ℕ) := Fin w × Fin h

/-- Open-passage adjacency between grid cells: two horizontally adjacent
cells are joined when the east wall of the western cell is cleared, two
vertically adjacent cells when the south (+y) wall of the northern cell
is cleared.  The carving always clears both sides of a shared wall, so
reading the western/northern flag determines the passage. -/
def openPassage (w h : ℕ) (grid : List Cell) (a b : MazeVertex w h) : Prop :=
  ((a.2 : ℕ) = (b.2 : ℕ) ∧ (b.1 : ℕ) = (a.1 : ℕ) + 1 ∧
      (cellG w h grid (a.1 : ℕ) (a.2 : ℕ)).wE = false) ∨
  ((a.2 : ℕ) = (b.2 : ℕ) ∧ (a.1 : ℕ) = (b.1 : ℕ) + 1 ∧
      (cellG w h grid (b.1 : ℕ) (b.2 : ℕ)).wE = false) ∨
  ((a.1 : ℕ) = (b.1 : ℕ) ∧ (b.2 : ℕ) = (a.2 : ℕ) + 1 ∧
      (cellG w h grid (a.1 : ℕ) (a.2 : ℕ)).wS = false) ∨
  ((a.1 : ℕ) = (b.1 : ℕ) ∧ (a.2 : ℕ) = (b.2 : ℕ) + 1 ∧
      (cellG w h grid (b.1 : ℕ) (b.2 : ℕ)).wS = false)

/-- The graph of open passages of a maze grid. -/
def mazeGraph (w h : ℕ) (grid : List Cell) : SimpleGraph (MazeVertex w h) where
  Adj := openPassage w h grid
  symm := by
    intro a b hab
    rcases hab with ⟨h1, h2, h3⟩ | ⟨h1, h2, h3⟩ | ⟨h1, h2, h3⟩ | ⟨h1, h2, h3⟩
    · exact Or.inr (Or.inl ⟨h1.symm, h2, h3⟩)
    · exact Or.inl ⟨h1.symm, h2, h3⟩
    · exact Or.inr (Or.inr (Or.inr ⟨h1.symm, h2, h3⟩))
    · exact Or.inr (Or.inr (Or.inl ⟨h1.symm, h2, h3⟩))
  loopless := by
    intro a ha
    rcases ha with ⟨h1, h2, h3⟩ | ⟨h1, h2, h3⟩ | ⟨h1, h2, h3⟩ | ⟨h1, h2, h3⟩ <;> omega

/-- The passage graph of a maze. -/
def Maze.passageGraph (m : Maze) : SimpleGraph (MazeVertex m.w m.h) :=
  mazeGraph m.w m.h m.grid

/-- Ball state: position, velocity, radius, the latched flat reference and
the tuning scalars.  Mirrors the data members of class `Ball`
(Ball.hpp lines 82-96); the GPU mesh is rendering-only and not modelled. -/
structure Ball where
  pos : V2
  vel : V2
  radius : ℚ
  hasFlatRef : Bool
  R0 : M3
  g : ℚ
  gain : ℚ
  deadzone : ℚ

/-- `Ball::setFlatReference` (Ball.hpp lines 110-116).  `cv::Rodrigues` is
external; the function is parameterized by the resulting matrix `R`. -/
def Ball.setFlatReference (R : M3) (b : Ball) : Ball :=
  { b with R0 := R, hasFlatRef := true }

/-- `Ball::applyDeadzone` (Ball.hpp lines 118-124). -/
def Ball.applyDeadzone (v dz : ℚ) : ℚ :=
  if |v| < dz then 0
  else (if 0 < v then (1 : ℚ) else -1) * ((|v| - dz) / (1 - dz))

/-- The world-down vector g0 = (0,0,-1) (Ball.hpp line 147). -/
def g0vec : Fin 3 → ℚ := ![0, 0, -1]

/-- Steps 3-6 of `Ball::update` (Ball.hpp lines 140-155): relative rotation
`Rrel = R0^T * R` and gravity in the current board frame
`g_cur = Rrel^T * g0`. -/
def Ball.gCur (R0 R : M3) : Fin 3 → ℚ :=
  ((R0.transpose * R).transpose).mulVec g0vec

/-- Steps 6-7 of `Ball::update` (Ball.hpp lines 153-161): deadzone, gain
and sign flip producing the planar acceleration. -/
def Ball.accel (R0 R : M3) (g gain dz : ℚ) : V2 :=
  let ax := Ball.applyDeadzone (Ball.gCur R0 R 0) dz
  let ay := Ball.applyDeadzone (Ball.gCur R0 R 1) dz
  ⟨-ax * g * gain, -ay * g * gain⟩

/-- X-axis wall collision (Ball.hpp lines 185-191): west/east clamp and
bounce with restitution 0.4. -/
def Ball.collideX (cell : Cell) (cellLeft cellRight r : ℚ) (nx vx : ℚ) : ℚ × ℚ :=
  if cell.wW = true ∧ nx - r < cellLeft then (cellLeft + r, -vx * (2/5))
  else if cell.wE = true ∧ nx + r > cellRight then (cellRight - r, -vx * (2/5))
  else (nx, vx)

/-- Y-axis wall collision (Ball.hpp lines 193-199): north/south clamp and
bounce with restitution 0.4 (north is the smaller-y side). -/
def Ball.collideY (cell : Cell) (cellTop cellBottom r : ℚ) (ny vy : ℚ) : ℚ × ℚ :=
  if cell.wN = true ∧ ny - r < cellTop then (cellTop + r, -vy * (2/5))
  else if cell.wS = true ∧ ny + r > cellBottom then (cellBottom - r, -vy * (2/5))
  else (ny, vy)

/-- Outer bounds clamp (Ball.hpp lines 201-206), in source order:
low clamps first, then high clamps. -/
def Ball.clampBounds (r maxW maxH : ℚ) (p : V2) : V2 :=
  let x1 := if p.x < r then r else p.x
  let y1 := if p.y < r then r else p.y
  let x2 := if x1 > maxW then maxW else x1
  let y2 := if y1 > maxH then maxH else y1
  ⟨x2, y2⟩

/-- Step 8 and the collision section of `Ball::update`
(Ball.hpp lines 166-206): semi-implicit Euler step with damping 0.85,
cell lookup from the pre-step position, per-axis wall response and the
final bounds clamp.  Returns the new position and velocity. -/
def Ball.integrate (dt : ℚ) (acc : V2) (maze : Maze) (pos vel : V2) (r : ℚ) : V2 × V2 :=
  let vel1 : V2 := ⟨(vel.x + acc.x * dt) * (17/20), (vel.y + acc.y * dt) * (17/20)⟩
  let nextPos : V2 := ⟨pos.x + vel1.x * dt, pos.y + vel1.y * dt⟩
  let gx : ℤ := ratTrunc (pos.x / maze.cellW)
  let gy : ℤ := ratTrunc (pos.y / maze.cellH)
  let cell := maze.atCell gx gy
  let cellLeft : ℚ := (gx : ℚ) * maze.cellW
  let cellRight : ℚ := ((gx : ℚ) + 1) * maze.cellW
  let cellTop : ℚ := (gy : ℚ) * maze.cellH
  let cellBottom : ℚ := ((gy : ℚ) + 1) * maze.cellH
  let px := Ball.collideX cell cellLeft cellRight r nextPos.x vel1.x
  let py := Ball.collideY cell cellTop cellBottom r nextPos.y vel1.y
  let maxW : ℚ := (maze.w : ℚ) * maze.cellW - r
  let maxH : ℚ := (maze.h : ℚ) * maze.cellH - r
  let p2 := Ball.clampBounds r maxW maxH ⟨px.1, py.1⟩
  (p2, ⟨px.2, py.2⟩)

/-- `Ball::update` (Ball.hpp lines 126-209).  `cv::Rodrigues` is external,
so the function takes the rotation matrix `R` directly.  If no flat
reference is latched yet, the current rotation is latched first
(lines 135-138); then the acceleration is computed and integrated. -/
def Ball.update (dt : ℚ) (R : M3) (maze : Maze) (b : Ball) : Ball :=
  let R0 := if b.hasFlatRef then b.R0 else R
  let acc := Ball.accel R0 R b.g b.gain b.deadzone
  let pv := Ball.integrate dt acc maze b.pos b.vel b.radius
  { b with pos := pv.1, vel := pv.2, R0 := R0, hasFlatRef := true }

/-- Quaternion over the reals, modelling a `glm::quat` (w, x, y, z). -/
structure Quat where
  w : ℝ
  x : ℝ
  y : ℝ
  z : ℝ

/-- Translation vector over the reals, modelling a 3x1 `cv::Mat` tvec. -/
structure V3R where
  x : ℝ
  y : ℝ
  z : ℝ

/-- The quaternion dot product (`glm::dot`). -/
def Quat.dot (p q : Quat) : ℝ :=
  p.w * q.w + p.x * q.x + p.y * q.y + p.z * q.z

/-- Quaternion negation (the antipodal representative). -/
def Quat.negQ (p : Quat) : Quat := ⟨-p.w, -p.x, -p.y, -p.z⟩

/-- Componentwise quaternion scaling. -/
def Quat.smul (a : ℝ) (p : Quat) : Quat := ⟨a * p.w, a * p.x, a * p.y, a * p.z⟩

/-- Componentwise quaternion addition. -/
def Quat.add (p q : Quat) : Quat := ⟨p.w + q.w, p.x + q.x, p.y + q.y, p.z + q.z⟩

/-- Model of `glm::slerp` (external library code), written as the
standard shortest-arc spherical linear interpolation of the spec
glossary: with `Ω = arccos ⟪p,q⟫`, the blend is
`(sin((1-a)Ω)·p + sin(aΩ)·q) / sin Ω`; when the inputs are (numerically)
parallel (`sin Ω = 0`) the interpolation degenerates and the raw input
is returned. -/
noncomputable def slerpQ (p q : Quat) (a : ℝ) : Quat :=
  let c := Quat.dot p q
  let om := Real.arccos c
  if Real.sin om = 0 then q
  else Quat.add (Quat.smul (Real.sin ((1 - a) * om) / Real.sin om) p)
    (Quat.smul (Real.sin (a * om) / Real.sin om) q)

/-- `PoseSmoother` state (smoothing.hpp lines 32-48): validity flag, the
stored previous pose (rotation modelled at quaternion level) and the
EMA coefficient (default 0.20). -/
structure PoseSmoother where
  hasPose : Bool := false
  rPrev : Quat := ⟨1, 0, 0, 0⟩
  tPrev : V3R := ⟨0, 0, 0⟩
  alphaPose : ℝ := 1/5

/-- `PoseSmoother::smooth` (smoothing.cpp lines 7-57).  The in-place
rvec/tvec parameters become an input pair and an output pair; `none`
models an empty `cv::Mat`.  The external conversions
rvec -> R -> quaternion and back are modelled as the identity at the
quaternion level (they preserve the rotation; the input carries the
sign ambiguity of the double cover).  Structure: empty guard (line 9),
cold-start initialisation (lines 16-21), translation EMA (lines 23-25),
quaternion sign correction (line 45), SLERP (line 47), state update
(lines 25 and 56). -/
noncomputable def PoseSmoother.smooth (rvec : Option Quat) (tvec : Option V3R)
    (s : PoseSmoother) : PoseSmoother × Option Quat × Option V3R :=
  match rvec, tvec with
  | none, _ => (s, rvec, tvec)
  | _, none => (s, rvec, tvec)
  | some q, some t =>
    if s.hasPose = false then
      ({ s with hasPose := true, rPrev := q, tPrev := t }, some q, some t)
    else
      let tS : V3R := ⟨(1 - s.alphaPose) * s.tPrev.x + s.alphaPose * t.x,
        (1 - s.alphaPose) * s.tPrev.y + s.alphaPose * t.y,
        (1 - s.alphaPose) * s.tPrev.z + s.alphaPose * t.z⟩
      let qCur := if Quat.dot q s.rPrev < 0 then Quat.negQ q else q
      let qSm := slerpQ s.rPrev qCur s.alphaPose
      ({ s with rPrev := qSm, tPrev := tS }, some qSm, some tS)

/-- Angular distance between two (unit) quaternions, shortest arc:
the absolute dot product identifies the two antipodal representatives
of the same rotation. -/
noncomputable def angDist (p q : Quat) : ℝ := Real.arccos |Quat.dot p q|

/-- Deadzone shaping function written from the spec text: output 0 inside
the deadzone, otherwise `sign(v) * (|v| - deadzone) / (1 - deadzone)`. -/
def deadzoneSpec (dz v : ℚ) : ℚ :=
  if |v| < dz then 0
  else (if 0 < v then (1 : ℚ) else if v < 0 then -1 else 0) * ((|v| - dz) / (1 - dz))

/-- Planar acceleration written from the spec text: relative rotation
`Rrel = R0ᵀ·R`, gravity in the current board frame `g_cur = Rrelᵀ·g0`
with `g0 = (0,0,-1)`, deadzone-shaped X,Y components, final acceleration
`(-ax, -ay) · g · gain`. -/
def gravityAccelSpec (R0 R : M3) (g gain dz : ℚ) : V2 :=
  let Rrel : M3 := R0.transpose * R
  let gcur : Fin 3 → ℚ := Rrel.transpose.mulVec ![0, 0, -1]
  ⟨-(deadzoneSpec dz (gcur 0)) * g * gain, -(deadzoneSpec dz (gcur 1)) * g * gain⟩

/-- An integer coordinate pair lies inside the `w × h` grid (the bound
check of the neighbour filter in `Maze::generate`). -/
def inGrid (w h : ℕ) (p : ℤ × ℤ) : Prop :=
  0 ≤ p.1 ∧ p.1 < (w : ℤ) ∧ 0 ≤ p.2 ∧ p.2 < (h : ℤ)

instance (w h : ℕ) (p : ℤ × ℤ) : Decidable (inGrid w h p) := by
  unfold inGrid
  infer_instance

/-- The visited flag of the cell at an integer coordinate. -/
def visC (w h : ℕ) (grid : List Cell) (p : ℤ × ℤ) : Prop :=
  (cellG w h grid p.1 p.2).visited = true

/-- Number of cells not yet visited (the loop measure of the generator). -/
def unvisitedCount (grid : List Cell) : ℕ :=
  grid.countP (fun c => !c.visited)

/-- One open-passage step between two in-range integer coordinates; the
integer-coordinate counterpart of `openPassage`. -/
def passStep (w h : ℕ) (grid : List Cell) (p q : ℤ × ℤ) : Prop :=
  inGrid w h p ∧ inGrid w h q ∧
  ((q.2 = p.2 ∧ q.1 = p.1 + 1 ∧ (cellG w h grid p.1 p.2).wE = false) ∨
   (q.2 = p.2 ∧ p.1 = q.1 + 1 ∧ (cellG w h grid q.1 q.2).wE = false) ∨
   (q.1 = p.1 ∧ q.2 = p.2 + 1 ∧ (cellG w h grid p.1 p.2).wS = false) ∨
   (q.1 = p.1 ∧ p.2 = q.2 + 1 ∧ (cellG w h grid q.1 q.2).wS = false))

/-- Flood-fill reachability over open passages at integer coordinates. -/
def reachC (w h : ℕ) (grid : List Cell) (p q : ℤ × ℤ) : Prop :=
  Relation.ReflTransGen (passStep w h grid) p q

/-- The loop invariant of `Maze::generate`: the grid has the right size,
the start cell is visited, the stack holds distinct visited in-range
cells, a visited cell off the stack has no unvisited in-range
neighbour, every cleared east/south wall joins two visited cells (and
stays inside the grid), every visited cell is flood-fill reachable from
the start, and the passage graph is acyclic. -/
structure GenInv (w h : ℕ) (grid : List Cell) (stack : List (ℤ × ℤ)) : Prop where
  len : grid.length = w * h
  rootVis : visC w h grid (0, 0)
  stackIn : ∀ p ∈ stack, inGrid w h p
  stackVis : ∀ p ∈ stack, visC w h grid p
  stackNd : stack.Nodup
  offStack : ∀ p, inGrid w h p → visC w h grid p → p ∉ stack →
    ∀ d ∈ mazeDirs, inGrid w h (p.1 + d.1, p.2 + d.2) → visC w h grid (p.1 + d.1, p.2 + d.2)
  wallsE : ∀ x y : ℤ, inGrid w h (x, y) → (cellG w h grid x y).wE = false →
    x + 1 < (w : ℤ) ∧ visC w h grid (x, y) ∧ visC w h grid (x + 1, y)
  wallsS : ∀ x y : ℤ, inGrid w h (x, y) → (cellG w h grid x y).wS = false →
    y + 1 < (h : ℤ) ∧ visC w h grid (x, y) ∧ visC w h grid (x, y + 1)
  reach : ∀ p, inGrid w h p → visC w h grid p → reachC w h grid (0, 0) p
  acyc : (mazeGraph w h grid).IsAcyclic

/-- The vertex of the passage graph corresponding to an in-range integer
coordinate pair. -/
def toV (w h : ℕ) (p : ℤ × ℤ) (hp : inGrid w h p) : MazeVertex w h :=
  (⟨p.1.toNat, by
    rcases hp with ⟨h1, h2, h3, h4⟩
    omega⟩,
   ⟨p.2.toNat, by
    rcases hp with ⟨h1, h2, h3, h4⟩
    omega⟩)

/-- A 1x1 maze with unit cell and all outer walls present. -/
def unitMaze : Maze :=
  { w := 1, h := 1, cellW := 1, cellH := 1, wallThick := 0, grid := [{}] }

/-- A ball whose diameter exceeds the 1x1 maze extent, with the identity
flat reference already latched. -/
def wideBall : Ball :=
  { pos := ⟨1/2, 1/2⟩, vel := ⟨0, 0⟩, radius := 3/5, hasFlatRef := true,
    R0 := 1, g := 981/100, gain := 1, deadzone := 3/100 }

/-- A rotation input whose gravity projection produces the constant planar
acceleration (1, 0) through the deadzone-and-gain pipeline. -/
def tunnelR : M3 := Matrix.of ![![1, 0, 0], ![0, 1, 0], ![12643/98100, 0, 1]]

/-- A 3x1 maze with unit cells: an open passage between cells 0 and 1 and
a closed east wall on cell 1. -/
def tunnelMaze : Maze :=
  { w := 3, h := 1, cellW := 1, cellH := 1, wallThick := 0,
    grid := [⟨true, true, false, true, true⟩, ⟨true, true, true, false, true⟩,
      ⟨true, true, true, true, false⟩] }

/-- A fast ball in the middle of cell 1 of `tunnelMaze`, moving east. -/
def tunnelBall : Ball :=
  { pos := ⟨3/2, 1/2⟩, vel := ⟨1000, 0⟩, radius := 1/10, hasFlatRef := true,
    R0 := 1, g := 981/100, gain := 1, deadzone := 3/100 }

/-!
## Theorems

Helper lemmas first, then one theorem per claim (with witnesses and
counterexamples where required).
-/

theorem ratTrunc_nonneg {q : ℚ} (h : 0 ≤ q) : 0 ≤ ratTrunc q := by
  simp only [ratTrunc, if_pos h]
  exact Int.floor_nonneg.mpr h

theorem clampBounds_x_le {r maxW maxH B : ℚ} {p : V2}
    (hp : p.x ≤ B) (hr : r ≤ B) : (Ball.clampBounds r maxW maxH p).x ≤ B := by
  simp only [Ball.clampBounds]
  split_ifs <;> linarith

theorem clampBounds_x_ge {r maxW maxH A : ℚ} {p : V2}
    (hp : A ≤ p.x) (hA : A ≤ maxW) : A ≤ (Ball.clampBounds r maxW maxH p).x := by
  simp only [Ball.clampBounds]
  split_ifs <;> linarith

theorem clampBounds_y_le {r maxW maxH B : ℚ} {p : V2}
    (hp : p.y ≤ B) (hr : r ≤ B) : (Ball.clampBounds r maxW maxH p).y ≤ B := by
  simp only [Ball.clampBounds]
  split_ifs <;> linarith

theorem clampBounds_y_ge {r maxW maxH A : ℚ} {p : V2}
    (hp : A ≤ p.y) (hA : A ≤ maxH) : A ≤ (Ball.clampBounds r maxW maxH p).y := by
  simp only [Ball.clampBounds]
  split_ifs <;> linarith

theorem clampBounds_x_mem {r maxW maxH : ℚ} (p : V2) (h : r ≤ maxW) :
    r ≤ (Ball.clampBounds r maxW maxH p).x ∧ (Ball.clampBounds r maxW maxH p).x ≤ maxW := by
  simp only [Ball.clampBounds]
  constructor <;> (split_ifs <;> linarith)

theorem clampBounds_y_mem {r maxW maxH : ℚ} (p : V2) (h : r ≤ maxH) :
    r ≤ (Ball.clampBounds r maxW maxH p).y ∧ (Ball.clampBounds r maxW maxH p).y ≤ maxH := by
  simp only [Ball.clampBounds]
  constructor <;> (split_ifs <;> linarith)

theorem collideX_le_right {cell : Cell} {L Rt r nx vx : ℚ}
    (hE : cell.wE = true) (h2 : L + 2 * r ≤ Rt) :
    (Ball.collideX cell L Rt r nx vx).1 + r ≤ Rt := by
  simp only [Ball.collideX]
  split_ifs with hA hB
  · linarith
  · linarith
  · have hx : ¬(nx + r > Rt) := fun hgt => hB ⟨hE, hgt⟩
    linarith

theorem collideX_ge_left {cell : Cell} {L Rt r nx vx : ℚ}
    (hW : cell.wW = true) (h2 : L + 2 * r ≤ Rt) :
    L + r ≤ (Ball.collideX cell L Rt r nx vx).1 := by
  simp only [Ball.collideX]
  split_ifs with hA hB
  · linarith
  · linarith
  · have hx : ¬(nx - r < L) := fun hlt => hA ⟨hW, hlt⟩
    linarith

theorem collideY_le_bottom {cell : Cell} {T Bt r ny vy : ℚ}
    (hS : cell.wS = true) (h2 : T + 2 * r ≤ Bt) :
    (Ball.collideY cell T Bt r ny vy).1 + r ≤ Bt := by
  simp only [Ball.collideY]
  split_ifs with hA hB
  · linarith
  · linarith
  · have hy : ¬(ny + r > Bt) := fun hgt => hB ⟨hS, hgt⟩
    linarith

theorem collideY_ge_top {cell : Cell} {T Bt r ny vy : ℚ}
    (hN : cell.wN = true) (h2 : T + 2 * r ≤ Bt) :
    T + r ≤ (Ball.collideY cell T Bt r ny vy).1 := by
  simp only [Ball.collideY]
  split_ifs with hA hB
  · linarith
  · linarith
  · have hy : ¬(ny - r < T) := fun hlt => hA ⟨hN, hlt⟩
    linarith

theorem update_pos (dt : ℚ) (R : M3) (maze : Maze) (b : Ball) :
    (Ball.update dt R maze b).pos =
      (Ball.integrate dt
        (Ball.accel (if b.hasFlatRef then b.R0 else R) R b.g b.gain b.deadzone)
        maze b.pos b.vel b.radius).1 := rfl

theorem update_radius (dt : ℚ) (R : M3) (maze : Maze) (b : Ball) :
    (Ball.update dt R maze b).radius = b.radius := rfl

theorem update_R0_of_hasFlatRef (dt : ℚ) (R : M3) (maze : Maze) (b : Ball)
    (h : b.hasFlatRef = true) : (Ball.update dt R maze b).R0 = b.R0 := by
  simp [Ball.update, h]

theorem update_hasFlatRef (dt : ℚ) (R : M3) (maze : Maze) (b : Ball) :
    (Ball.update dt R maze b).hasFlatRef = true := rfl

theorem integrate_fst (dt : ℚ) (acc : V2) (maze : Maze) (pos vel : V2) (r : ℚ) :
    (Ball.integrate dt acc maze pos vel r).1 =
      Ball.clampBounds r ((maze.w : ℚ) * maze.cellW - r) ((maze.h : ℚ) * maze.cellH - r)
        ⟨(Ball.collideX
            (maze.atCell (ratTrunc (pos.x / maze.cellW)) (ratTrunc (pos.y / maze.cellH)))
            ((ratTrunc (pos.x / maze.cellW) : ℚ) * maze.cellW)
            (((ratTrunc (pos.x / maze.cellW) : ℚ) + 1) * maze.cellW) r
            (pos.x + (vel.x + acc.x * dt) * (17/20) * dt)
            ((vel.x + acc.x * dt) * (17/20))).1,
          (Ball.collideY
            (maze.atCell (ratTrunc (pos.x / maze.cellW)) (ratTrunc (pos.y / maze.cellH)))
            ((ratTrunc (pos.y / maze.cellH) : ℚ) * maze.cellH)
            (((ratTrunc (pos.y / maze.cellH) : ℚ) + 1) * maze.cellH) r
            (pos.y + (vel.y + acc.y * dt) * (17/20) * dt)
            ((vel.y + acc.y * dt) * (17/20))).1⟩ := rfl

theorem update_bounds_step (dt : ℚ) (R : M3) (maze : Maze) (b : Ball)
    (hx : 2 * b.radius ≤ (maze.w : ℚ) * maze.cellW)
    (hy : 2 * b.radius ≤ (maze.h : ℚ) * maze.cellH) :
    (b.radius ≤ (Ball.update dt R maze b).pos.x ∧
      (Ball.update dt R maze b).pos.x ≤ (maze.w : ℚ) * maze.cellW - b.radius) ∧
    (b.radius ≤ (Ball.update dt R maze b).pos.y ∧
      (Ball.update dt R maze b).pos.y ≤ (maze.h : ℚ) * maze.cellH - b.radius) := by
  rw [update_pos, integrate_fst]
  constructor
  · exact clampBounds_x_mem _ (by linarith)
  · exact clampBounds_y_mem _ (by linarith)

theorem accel_orthogonal_eq_zero (R : M3) (g gain dz : ℚ)
    (hR : R.transpose * R = 1) (hdz : 0 < dz) :
    Ball.accel R R g gain dz = ⟨0, 0⟩ := by
  have hcur : Ball.gCur R R = g0vec := by
    rw [Ball.gCur, hR, Matrix.transpose_one, Matrix.one_mulVec]
  have h0 : Ball.applyDeadzone 0 dz = 0 := by
    simp [Ball.applyDeadzone, hdz]
  simp only [Ball.accel, hcur]
  have hg0 : g0vec 0 = 0 := rfl
  have hg1 : g0vec 1 = 0 := rfl
  rw [hg0, hg1, h0]
  norm_num

theorem tunnel_accel :
    Ball.accel 1 tunnelR (981/100) 1 (3/100) = ⟨1, 0⟩ := by
  simp only [Ball.accel, Ball.gCur, Matrix.transpose_one, Matrix.one_mul, tunnelR,
    Matrix.mulVec, Matrix.dotProduct, Fin.sum_univ_three, Matrix.transpose_apply,
    Matrix.of_apply, g0vec]
  norm_num [Ball.applyDeadzone, Matrix.cons_val_zero, Matrix.cons_val_one, Matrix.head_cons,
    Matrix.cons_val_two, Matrix.tail_cons]
  rw [show |(12643:ℚ)/98100| = 12643/98100 from abs_of_pos (by norm_num)]
  norm_num

theorem tunnel_step1 : Ball.update (1/20) tunnelR tunnelMaze tunnelBall =
    { pos := ⟨19/10, 1/2⟩, vel := ⟨-340017/1000, 0⟩, radius := 1/10, hasFlatRef := true,
      R0 := 1, g := 981/100, gain := 1, deadzone := 3/100 } := by
  rw [Ball.update]
  norm_num [tunnelBall, tunnel_accel]
  rw [Ball.integrate]
  norm_num [ratTrunc, Maze.atCell, cellG, tunnelMaze, List.getD, Ball.collideX, Ball.collideY,
    Ball.clampBounds]

theorem tunnel_step2 : Ball.update (1/20) tunnelR tunnelMaze
    { pos := ⟨19/10, 1/2⟩, vel := ⟨-340017/1000, 0⟩, radius := 1/10, hasFlatRef := true,
      R0 := 1, g := 981/100, gain := 1, deadzone := 3/100 } =
    { pos := ⟨1/10, 1/2⟩, vel := ⟨-5779439/20000, 0⟩, radius := 1/10, hasFlatRef := true,
      R0 := 1, g := 981/100, gain := 1, deadzone := 3/100 } := by
  rw [Ball.update]
  norm_num [tunnel_accel]
  rw [Ball.integrate]
  norm_num [ratTrunc, Maze.atCell, cellG, tunnelMaze, List.getD, Ball.collideX, Ball.collideY,
    Ball.clampBounds]

theorem tunnel_step3 : Ball.update (1/20) tunnelR tunnelMaze
    { pos := ⟨1/10, 1/2⟩, vel := ⟨-5779439/20000, 0⟩, radius := 1/10, hasFlatRef := true,
      R0 := 1, g := 981/100, gain := 1, deadzone := 3/100 } =
    { pos := ⟨1/10, 1/2⟩, vel := ⟨98233463/1000000, 0⟩, radius := 1/10, hasFlatRef := true,
      R0 := 1, g := 981/100, gain := 1, deadzone := 3/100 } := by
  rw [Ball.update]
  norm_num [tunnel_accel]
  rw [Ball.integrate]
  norm_num [ratTrunc, Maze.atCell, cellG, tunnelMaze, List.getD, Ball.collideX, Ball.collideY,
    Ball.clampBounds]

theorem tunnel_step4 : Ball.update (1/20) tunnelR tunnelMaze
    { pos := ⟨1/10, 1/2⟩, vel := ⟨98233463/1000000, 0⟩, radius := 1/10, hasFlatRef := true,
      R0 := 1, g := 981/100, gain := 1, deadzone := 3/100 } =
    { pos := ⟨29/10, 1/2⟩, vel := ⟨1670818871/20000000, 0⟩, radius := 1/10, hasFlatRef := true,
      R0 := 1, g := 981/100, gain := 1, deadzone := 3/100 } := by
  rw [Ball.update]
  norm_num [tunnel_accel]
  rw [Ball.integrate]
  norm_num [ratTrunc, Maze.atCell, cellG, tunnelMaze, List.getD, Ball.collideX, Ball.collideY,
    Ball.clampBounds]

/-- C1 (amended): for any maze and any ball whose diameter fits the maze
extent on both axes (`2*radius ≤ w*cellW` and `2*radius ≤ h*cellH`),
after any nonempty finite sequence of `Ball::update` calls (any dt, any
rotation inputs) the ball position lies within
`[radius, w*cellW - radius] × [radius, h*cellH - radius]`.  The fit
hypothesis is forced by the counterexample
`ball_position_bounds_invariant_cex`: for an oversized radius the final
clamp order leaves the position below `radius`. -/
theorem ball_position_bounds_invariant (maze : Maze) (b : Ball)
    (hx : 2 * b.radius ≤ (maze.w : ℚ) * maze.cellW)
    (hy : 2 * b.radius ≤ (maze.h : ℚ) * maze.cellH)
    (steps : List (ℚ × M3)) (hne : steps ≠ []) :
    b.radius ≤ (steps.foldl (fun s p => Ball.update p.1 p.2 maze s) b).pos.x ∧
    (steps.foldl (fun s p => Ball.update p.1 p.2 maze s) b).pos.x ≤
      (maze.w : ℚ) * maze.cellW - b.radius ∧
    b.radius ≤ (steps.foldl (fun s p => Ball.update p.1 p.2 maze s) b).pos.y ∧
    (steps.foldl (fun s p => Ball.update p.1 p.2 maze s) b).pos.y ≤
      (maze.h : ℚ) * maze.cellH - b.radius := by
  induction steps generalizing b with
  | nil => exact absurd rfl hne
  | cons p rest ih =>
    rw [List.foldl_cons]
    rcases rest with _ | ⟨q, rest2⟩
    · have h := update_bounds_step p.1 p.2 maze b hx hy
      simp only [List.foldl_nil]
      exact ⟨h.1.1, h.1.2, h.2.1, h.2.2⟩
    · have hrad : (Ball.update p.1 p.2 maze b).radius = b.radius := update_radius _ _ _ _
      have h := ih (Ball.update p.1 p.2 maze b)
        (by rw [hrad]; exact hx) (by rw [hrad]; exact hy) (by simp)
      rw [hrad] at h
      exact h

/-- Witness for `ball_position_bounds_invariant` at a concrete instance. -/
theorem ball_position_bounds_invariant_witness :
    (2 * ((1:ℚ)/10) ≤ ((unitMaze.w : ℚ) * unitMaze.cellW) ∧
      2 * ((1:ℚ)/10) ≤ ((unitMaze.h : ℚ) * unitMaze.cellH) ∧
      ([((1:ℚ)/60, (1 : M3))] ≠ ([] : List (ℚ × M3)))) ∧
    (1:ℚ)/10 ≤ (([((1:ℚ)/60, (1 : M3))]).foldl
        (fun s p => Ball.update p.1 p.2 unitMaze s)
        { pos := ⟨1/2, 1/2⟩, vel := ⟨0, 0⟩, radius := 1/10, hasFlatRef := true,
          R0 := 1, g := 981/100, gain := 1, deadzone := 3/100 }).pos.x := by
  refine ⟨⟨by norm_num [unitMaze], by norm_num [unitMaze], by simp⟩, ?_⟩
  exact (ball_position_bounds_invariant unitMaze
    { pos := ⟨1/2, 1/2⟩, vel := ⟨0, 0⟩, radius := 1/10, hasFlatRef := true,
      R0 := 1, g := 981/100, gain := 1, deadzone := 3/100 }
    (by norm_num [unitMaze]) (by norm_num [unitMaze])
    [((1:ℚ)/60, (1 : M3))] (by simp)).1

/-- C1 as literally stated (for an arbitrary ball radius) is false: in a
1x1 maze of unit extent, a ball of radius 3/5 starting at the centre
ends one `Ball::update` below `radius` (at `x = 2/5 < 3/5`), because the
final clamp applies the upper bound `w*cellW - radius = 2/5` after the
lower one. -/
theorem ball_position_bounds_invariant_cex :
    (Ball.update (1/60) 1 unitMaze wideBall).pos.x < wideBall.radius := by
  have hacc : Ball.accel 1 1 (981/100) 1 (3/100) = ⟨0, 0⟩ :=
    accel_orthogonal_eq_zero 1 (981/100) 1 (3/100) (by simp) (by norm_num)
  rw [Ball.update]
  norm_num [wideBall, hacc]
  rw [Ball.integrate]
  norm_num [ratTrunc, Maze.atCell, cellG, unitMaze, List.getD, Ball.collideX, Ball.collideY,
    Ball.clampBounds]

/-- C2 (amended): in a `Ball::update` step, writing `(gx,gy)` for the cell
occupied by the pre-step position (integer division, truncating toward
zero) and assuming the ball fits a cell (`2*radius ≤ cellW, cellH`), the
pre-step position is nonnegative and `(gx,gy)` lies inside the grid,
each wall flag of the occupied cell that is set bounds the post-step
position at that wall plane offset by the radius: the step clamps the
tentative position to the wall surface and reflects the velocity with
restitution 0.4, so a ball occupying a cell with a flagged wall never
ends a step beyond that wall plane; iterating, repeated integration
toward the wall under any acceleration never crosses it while the ball
occupies the cell.  The occupancy proviso is forced by
`ball_wall_impermeability_cex`: a ball that bounces out of the flagged
cell and returns at high speed can tunnel through the wall, since
collision only consults the occupied cell. -/
theorem ball_wall_impermeability (maze : Maze) (b : Ball) (dt : ℚ) (R : M3)
    (hcw : 0 < maze.cellW) (hch : 0 < maze.cellH)
    (hrx : 2 * b.radius ≤ maze.cellW) (hry : 2 * b.radius ≤ maze.cellH)
    (hpx : 0 ≤ b.pos.x) (hpy : 0 ≤ b.pos.y)
    (hgxw : ratTrunc (b.pos.x / maze.cellW) < (maze.w : ℤ))
    (hgyh : ratTrunc (b.pos.y / maze.cellH) < (maze.h : ℤ)) :
    ((maze.atCell (ratTrunc (b.pos.x / maze.cellW)) (ratTrunc (b.pos.y / maze.cellH))).wE = true →
      (Ball.update dt R maze b).pos.x + b.radius ≤
        ((ratTrunc (b.pos.x / maze.cellW) : ℚ) + 1) * maze.cellW) ∧
    ((maze.atCell (ratTrunc (b.pos.x / maze.cellW)) (ratTrunc (b.pos.y / maze.cellH))).wW = true →
      (ratTrunc (b.pos.x / maze.cellW) : ℚ) * maze.cellW + b.radius ≤
        (Ball.update dt R maze b).pos.x) ∧
    ((maze.atCell (ratTrunc (b.pos.x / maze.cellW)) (ratTrunc (b.pos.y / maze.cellH))).wS = true →
      (Ball.update dt R maze b).pos.y + b.radius ≤
        ((ratTrunc (b.pos.y / maze.cellH) : ℚ) + 1) * maze.cellH) ∧
    ((maze.atCell (ratTrunc (b.pos.x / maze.cellW)) (ratTrunc (b.pos.y / maze.cellH))).wN = true →
      (ratTrunc (b.pos.y / maze.cellH) : ℚ) * maze.cellH + b.radius ≤
        (Ball.update dt R maze b).pos.y) := by
  have hgx0 : (0:ℤ) ≤ ratTrunc (b.pos.x / maze.cellW) :=
    ratTrunc_nonneg (div_nonneg hpx hcw.le)
  have hgy0 : (0:ℤ) ≤ ratTrunc (b.pos.y / maze.cellH) :=
    ratTrunc_nonneg (div_nonneg hpy hch.le)
  set gx := ratTrunc (b.pos.x / maze.cellW) with hgxdef
  set gy := ratTrunc (b.pos.y / maze.cellH) with hgydef
  have hgxQ : (0:ℚ) ≤ (gx : ℚ) := by exact_mod_cast hgx0
  have hgyQ : (0:ℚ) ≤ (gy : ℚ) := by exact_mod_cast hgy0
  have hgxwQ : (gx : ℚ) + 1 ≤ (maze.w : ℚ) := by
    have : (gx : ℚ) + 1 ≤ ((maze.w : ℤ) : ℚ) := by exact_mod_cast hgxw
    simpa using this
  have hgyhQ : (gy : ℚ) + 1 ≤ (maze.h : ℚ) := by
    have : (gy : ℚ) + 1 ≤ ((maze.h : ℤ) : ℚ) := by exact_mod_cast hgyh
    simpa using this
  have hLR : (gx : ℚ) * maze.cellW + 2 * b.radius ≤ ((gx : ℚ) + 1) * maze.cellW := by
    have : ((gx : ℚ) + 1) * maze.cellW = (gx : ℚ) * maze.cellW + maze.cellW := by ring
    linarith
  have hTB : (gy : ℚ) * maze.cellH + 2 * b.radius ≤ ((gy : ℚ) + 1) * maze.cellH := by
    have : ((gy : ℚ) + 1) * maze.cellH = (gy : ℚ) * maze.cellH + maze.cellH := by ring
    linarith
  have hRt1 : maze.cellW ≤ ((gx : ℚ) + 1) * maze.cellW := by
    nlinarith
  have hBt1 : maze.cellH ≤ ((gy : ℚ) + 1) * maze.cellH := by
    nlinarith
  have hRtW : ((gx : ℚ) + 1) * maze.cellW ≤ (maze.w : ℚ) * maze.cellW :=
    mul_le_mul_of_nonneg_right hgxwQ hcw.le
  have hBtH : ((gy : ℚ) + 1) * maze.cellH ≤ (maze.h : ℚ) * maze.cellH :=
    mul_le_mul_of_nonneg_right hgyhQ hch.le
  rw [update_pos, integrate_fst, ← hgxdef, ← hgydef]
  refine ⟨fun hE => ?_, fun hW => ?_, fun hS => ?_, fun hN => ?_⟩
  · have h1 := @collideX_le_right (maze.atCell gx gy)
      ((gx : ℚ) * maze.cellW) (((gx : ℚ) + 1) * maze.cellW)
      (b.radius)
      (b.pos.x + (b.vel.x + (Ball.accel (if b.hasFlatRef then b.R0 else R) R b.g b.gain b.deadzone).x * dt) * (17/20) * dt)
      ((b.vel.x + (Ball.accel (if b.hasFlatRef then b.R0 else R) R b.g b.gain b.deadzone).x * dt) * (17/20))
      hE hLR
    have h2 := @clampBounds_x_le b.radius
      ((maze.w : ℚ) * maze.cellW - b.radius)
      ((maze.h : ℚ) * maze.cellH - b.radius)
      (((gx : ℚ) + 1) * maze.cellW - b.radius)
      ⟨(Ball.collideX (maze.atCell gx gy)
            ((gx : ℚ) * maze.cellW) (((gx : ℚ) + 1) * maze.cellW) b.radius
            (b.pos.x + (b.vel.x + (Ball.accel (if b.hasFlatRef then b.R0 else R) R b.g b.gain b.deadzone).x * dt) * (17/20) * dt)
            ((b.vel.x + (Ball.accel (if b.hasFlatRef then b.R0 else R) R b.g b.gain b.deadzone).x * dt) * (17/20))).1,
          (Ball.collideY (maze.atCell gx gy)
            ((gy : ℚ) * maze.cellH) (((gy : ℚ) + 1) * maze.cellH) b.radius
            (b.pos.y + (b.vel.y + (Ball.accel (if b.hasFlatRef then b.R0 else R) R b.g b.gain b.deadzone).y * dt) * (17/20) * dt)
            ((b.vel.y + (Ball.accel (if b.hasFlatRef then b.R0 else R) R b.g b.gain b.deadzone).y * dt) * (17/20))).1⟩
      (by linarith) (by linarith)
    linarith
  · have h1 := @collideX_ge_left (maze.atCell gx gy)
      ((gx : ℚ) * maze.cellW) (((gx : ℚ) + 1) * maze.cellW)
      (b.radius)
      (b.pos.x + (b.vel.x + (Ball.accel (if b.hasFlatRef then b.R0 else R) R b.g b.gain b.deadzone).x * dt) * (17/20) * dt)
      ((b.vel.x + (Ball.accel (if b.hasFlatRef then b.R0 else R) R b.g b.gain b.deadzone).x * dt) * (17/20))
      hW hLR
    have h2 := @clampBounds_x_ge b.radius
      ((maze.w : ℚ) * maze.cellW - b.radius)
      ((maze.h : ℚ) * maze.cellH - b.radius)
      ((gx : ℚ) * maze.cellW + b.radius)
      ⟨(Ball.collideX (maze.atCell gx gy)
            ((gx : ℚ) * maze.cellW) (((gx : ℚ) + 1) * maze.cellW) b.radius
            (b.pos.x + (b.vel.x + (Ball.accel (if b.hasFlatRef then b.R0 else R) R b.g b.gain b.deadzone).x * dt) * (17/20) * dt)
            ((b.vel.x + (Ball.accel (if b.hasFlatRef then b.R0 else R) R b.g b.gain b.deadzone).x * dt) * (17/20))).1,
          (Ball.collideY (maze.atCell gx gy)
            ((gy : ℚ) * maze.cellH) (((gy : ℚ) + 1) * maze.cellH) b.radius
            (b.pos.y + (b.vel.y + (Ball.accel (if b.hasFlatRef then b.R0 else R) R b.g b.gain b.deadzone).y * dt) * (17/20) * dt)
            ((b.vel.y + (Ball.accel (if b.hasFlatRef then b.R0 else R) R b.g b.gain b.deadzone).y * dt) * (17/20))).1⟩
      h1 (by linarith)
    linarith
  · have h1 := @collideY_le_bottom (maze.atCell gx gy)
      ((gy : ℚ) * maze.cellH) (((gy : ℚ) + 1) * maze.cellH)
      (b.radius)
      (b.pos.y + (b.vel.y + (Ball.accel (if b.hasFlatRef then b.R0 else R) R b.g b.gain b.deadzone).y * dt) * (17/20) * dt)
      ((b.vel.y + (Ball.accel (if b.hasFlatRef then b.R0 else R) R b.g b.gain b.deadzone).y * dt) * (17/20))
      hS hTB
    have h2 := @clampBounds_y_le b.radius
      ((maze.w : ℚ) * maze.cellW - b.radius)
      ((maze.h : ℚ) * maze.cellH - b.radius)
      (((gy : ℚ) + 1) * maze.cellH - b.radius)
      ⟨(Ball.collideX (maze.atCell gx gy)
            ((gx : ℚ) * maze.cellW) (((gx : ℚ) + 1) * maze.cellW) b.radius
            (b.pos.x + (b.vel.x + (Ball.accel (if b.hasFlatRef then b.R0 else R) R b.g b.gain b.deadzone).x * dt) * (17/20) * dt)
            ((b.vel.x + (Ball.accel (if b.hasFlatRef then b.R0 else R) R b.g b.gain b.deadzone).x * dt) * (17/20))).1,
          (Ball.collideY (maze.atCell gx gy)
            ((gy : ℚ) * maze.cellH) (((gy : ℚ) + 1) * maze.cellH) b.radius
            (b.pos.y + (b.vel.y + (Ball.accel (if b.hasFlatRef then b.R0 else R) R b.g b.gain b.deadzone).y * dt) * (17/20) * dt)
            ((b.vel.y + (Ball.accel (if b.hasFlatRef then b.R0 else R) R b.g b.gain b.deadzone).y * dt) * (17/20))).1⟩
      (by linarith) (by linarith)
    linarith
  · have h1 := @collideY_ge_top (maze.atCell gx gy)
      ((gy : ℚ) * maze.cellH) (((gy : ℚ) + 1) * maze.cellH)
      (b.radius)
      (b.pos.y + (b.vel.y + (Ball.accel (if b.hasFlatRef then b.R0 else R) R b.g b.gain b.deadzone).y * dt) * (17/20) * dt)
      ((b.vel.y + (Ball.accel (if b.hasFlatRef then b.R0 else R) R b.g b.gain b.deadzone).y * dt) * (17/20))
      hN hTB
    have h2 := @clampBounds_y_ge b.radius
      ((maze.w : ℚ) * maze.cellW - b.radius)
      ((maze.h : ℚ) * maze.cellH - b.radius)
      ((gy : ℚ) * maze.cellH + b.radius)
      ⟨(Ball.collideX (maze.atCell gx gy)
            ((gx : ℚ) * maze.cellW) (((gx : ℚ) + 1) * maze.cellW) b.radius
            (b.pos.x + (b.vel.x + (Ball.accel (if b.hasFlatRef then b.R0 else R) R b.g b.gain b.deadzone).x * dt) * (17/20) * dt)
            ((b.vel.x + (Ball.accel (if b.hasFlatRef then b.R0 else R) R b.g b.gain b.deadzone).x * dt) * (17/20))).1,
          (Ball.collideY (maze.atCell gx gy)
            ((gy : ℚ) * maze.cellH) (((gy : ℚ) + 1) * maze.cellH) b.radius
            (b.pos.y + (b.vel.y + (Ball.accel (if b.hasFlatRef then b.R0 else R) R b.g b.gain b.deadzone).y * dt) * (17/20) * dt)
            ((b.vel.y + (Ball.accel (if b.hasFlatRef then b.R0 else R) R b.g b.gain b.deadzone).y * dt) * (17/20))).1⟩
      h1 (by linarith)
    linarith

/-- Witness for `ball_wall_impermeability` at a concrete instance. -/
theorem ball_wall_impermeability_witness :
    ((0:ℚ) < unitMaze.cellW ∧ (0:ℚ) < unitMaze.cellH ∧
      2 * ((1:ℚ)/10) ≤ unitMaze.cellW ∧ 2 * ((1:ℚ)/10) ≤ unitMaze.cellH ∧
      (0:ℚ) ≤ 1/2 ∧
      ratTrunc ((1/2 : ℚ) / unitMaze.cellW) < (unitMaze.w : ℤ) ∧
      ratTrunc ((1/2 : ℚ) / unitMaze.cellH) < (unitMaze.h : ℤ)) ∧
    (Ball.update (1/60) 1 unitMaze
        { pos := ⟨1/2, 1/2⟩, vel := ⟨0, 0⟩, radius := 1/10, hasFlatRef := true,
          R0 := 1, g := 981/100, gain := 1, deadzone := 3/100 }).pos.x + (1/10 : ℚ) ≤
      ((ratTrunc ((1/2 : ℚ) / unitMaze.cellW) : ℚ) + 1) * unitMaze.cellW := by
  refine ⟨⟨by norm_num [unitMaze], by norm_num [unitMaze], by norm_num [unitMaze],
    by norm_num [unitMaze], by norm_num, by norm_num [unitMaze, ratTrunc],
    by norm_num [unitMaze, ratTrunc]⟩, ?_⟩
  exact (ball_wall_impermeability unitMaze
    { pos := ⟨1/2, 1/2⟩, vel := ⟨0, 0⟩, radius := 1/10, hasFlatRef := true,
      R0 := 1, g := 981/100, gain := 1, deadzone := 3/100 }
    (1/60) 1
    (by norm_num [unitMaze]) (by norm_num [unitMaze]) (by norm_num [unitMaze])
    (by norm_num [unitMaze]) (by norm_num) (by norm_num)
    (by norm_num [unitMaze, ratTrunc]) (by norm_num [unitMaze, ratTrunc])).1
    (by norm_num [unitMaze, Maze.atCell, cellG, ratTrunc, List.getD])

/-- C2 as literally stated is false: in `tunnelMaze` the ball starts
inside cell (1,0) whose east wall flag is set, moves east under the
constant acceleration (1,0) produced by `tunnelR`, with
`dt = 1/20 ∈ [1/500, 1/20]`, yet after four updates its position is
beyond the east wall plane `x = 2` (the ball bounces off the wall, flies
out of the cell to the west, bounces back and then tunnels through,
because collision only consults the currently occupied cell). -/
theorem ball_wall_impermeability_cex :
    (Maze.atCell tunnelMaze 1 0).wE = true ∧
    ratTrunc (tunnelBall.pos.x / tunnelMaze.cellW) = 1 ∧
    ratTrunc (tunnelBall.pos.y / tunnelMaze.cellH) = 0 ∧
    0 < tunnelBall.vel.x ∧
    Ball.accel tunnelBall.R0 tunnelR tunnelBall.g tunnelBall.gain tunnelBall.deadzone
      = ⟨1, 0⟩ ∧
    ((1:ℚ)/500) ≤ 1/20 ∧
    (Ball.update (1/20) tunnelR tunnelMaze
      (Ball.update (1/20) tunnelR tunnelMaze
        (Ball.update (1/20) tunnelR tunnelMaze
          (Ball.update (1/20) tunnelR tunnelMaze tunnelBall)))).pos.x + tunnelBall.radius >
      (((1:ℤ) : ℚ) + 1) * tunnelMaze.cellW := by
  refine ⟨?_, ?_, ?_, by norm_num [tunnelBall], ?_, by norm_num, ?_⟩
  · norm_num [tunnelMaze, Maze.atCell, cellG, List.getD]
  · norm_num [tunnelBall, tunnelMaze, ratTrunc]
  · norm_num [tunnelBall, tunnelMaze, ratTrunc]
  · simpa [tunnelBall] using tunnel_accel
  · rw [tunnel_step1, tunnel_step2, tunnel_step3, tunnel_step4]
    norm_num [tunnelBall, tunnelMaze]

/-- C4: for any current rotation R and latched reference R0, the planar
acceleration used by `Ball::update` is
`(-s(ax)*g*gain, -s(ay)*g*gain)` where `(ax, ay)` are the X,Y components
of `g_cur = (R0ᵀ·R)ᵀ·(0,0,-1)` and `s` is the spec deadzone shaping
function: the code deadzone equals the spec shaping function for every
input, and the code acceleration equals the spec formula. -/
theorem gravity_projection_formula (dz : ℚ) (hdz : 0 < dz) :
    (∀ v : ℚ, Ball.applyDeadzone v dz = deadzoneSpec dz v) ∧
    (∀ R0 R : M3, ∀ g gain : ℚ,
      Ball.accel R0 R g gain dz = gravityAccelSpec R0 R g gain dz) := by
  have hdzv : ∀ v : ℚ, Ball.applyDeadzone v dz = deadzoneSpec dz v := by
    intro v
    by_cases hv : |v| < dz
    · simp [Ball.applyDeadzone, deadzoneSpec, hv]
    · rcases lt_trichotomy 0 v with hp | hz | hn
      · simp [Ball.applyDeadzone, deadzoneSpec, hv, hp]
      · exfalso
        exact hv (by rw [← hz, abs_zero]; exact hdz)
      · have hnp : ¬(0 < v) := by linarith
        simp [Ball.applyDeadzone, deadzoneSpec, hv, hnp, hn]
  refine ⟨hdzv, fun R0 R g gain => ?_⟩
  simp only [Ball.accel, gravityAccelSpec, Ball.gCur, g0vec, hdzv]

/-- Witness for `gravity_projection_formula` at the configured deadzone. -/
theorem gravity_projection_formula_witness :
    (0 : ℚ) < 3/100 ∧
    ((∀ v : ℚ, Ball.applyDeadzone v (3/100) = deadzoneSpec (3/100) v) ∧
      (∀ R0 R : M3, ∀ g gain : ℚ,
        Ball.accel R0 R g gain (3/100) = gravityAccelSpec R0 R g gain (3/100))) :=
  ⟨by norm_num, gravity_projection_formula (3/100) (by norm_num)⟩

/-- C7: once the flat reference is latched (`hasFlatRef = true`), no
sequence of `Ball::update` calls ever changes `R0` or clears the flag;
`R0` changes only through the explicit `Ball::setFlatReference`, which
stores the given rotation and sets the flag. -/
theorem flat_reference_latch_once (maze : Maze) (b : Ball)
    (href : b.hasFlatRef = true) (steps : List (ℚ × M3)) :
    (steps.foldl (fun s p => Ball.update p.1 p.2 maze s) b).R0 = b.R0 ∧
    (steps.foldl (fun s p => Ball.update p.1 p.2 maze s) b).hasFlatRef = true ∧
    (∀ R : M3, (Ball.setFlatReference R b).R0 = R ∧
      (Ball.setFlatReference R b).hasFlatRef = true) := by
  induction steps generalizing b with
  | nil => exact ⟨rfl, href, fun R => ⟨rfl, rfl⟩⟩
  | cons p rest ih =>
    rw [List.foldl_cons]
    have h := ih (Ball.update p.1 p.2 maze b) (update_hasFlatRef p.1 p.2 maze b)
    refine ⟨?_, h.2.1, fun R => ⟨rfl, rfl⟩⟩
    rw [h.1, update_R0_of_hasFlatRef p.1 p.2 maze b href]

/-- Witness for `flat_reference_latch_once` at a concrete instance. -/
theorem flat_reference_latch_once_witness :
    ({ pos := ⟨1/2, 1/2⟩, vel := ⟨0, 0⟩, radius := 1/10, hasFlatRef := true,
        R0 := 1, g := 981/100, gain := 1, deadzone := 3/100 } : Ball).hasFlatRef = true ∧
    (([((1:ℚ)/60, (1 : M3))]).foldl (fun s p => Ball.update p.1 p.2 unitMaze s)
        { pos := ⟨1/2, 1/2⟩, vel := ⟨0, 0⟩, radius := 1/10, hasFlatRef := true,
          R0 := 1, g := 981/100, gain := 1, deadzone := 3/100 }).R0 = (1 : M3) :=
  ⟨rfl, (flat_reference_latch_once unitMaze
    { pos := ⟨1/2, 1/2⟩, vel := ⟨0, 0⟩, radius := 1/10, hasFlatRef := true,
      R0 := 1, g := 981/100, gain := 1, deadzone := 3/100 }
    rfl [((1:ℚ)/60, (1 : M3))]).1⟩

/-- C10: an update while no flat reference is latched first latches the
current rotation (`R0 := R`, `hasFlatRef := true`); because the relative
rotation is then `RᵀR = 1`, the projected gravity is `(0,0,-1)` whose
planar components are shaped to exactly zero by the deadzone, so that
step integrates with zero acceleration: the velocity is only damped by
0.85 and the position advances by the damped velocity times dt before
collision clamping. -/
theorem first_update_zero_acceleration (b : Ball) (R : M3) (dt : ℚ) (maze : Maze)
    (h0 : b.hasFlatRef = false) (hR : R.transpose * R = 1) (hdz : 0 < b.deadzone) :
    Ball.accel R R b.g b.gain b.deadzone = ⟨0, 0⟩ ∧
    Ball.update dt R maze b =
      { b with
        hasFlatRef := true,
        R0 := R,
        pos := (Ball.integrate dt ⟨0, 0⟩ maze b.pos b.vel b.radius).1,
        vel := (Ball.integrate dt ⟨0, 0⟩ maze b.pos b.vel b.radius).2 } ∧
    Ball.integrate dt ⟨0, 0⟩ maze b.pos b.vel b.radius =
      (Ball.clampBounds b.radius ((maze.w : ℚ) * maze.cellW - b.radius)
          ((maze.h : ℚ) * maze.cellH - b.radius)
          ⟨(Ball.collideX
              (maze.atCell (ratTrunc (b.pos.x / maze.cellW)) (ratTrunc (b.pos.y / maze.cellH)))
              ((ratTrunc (b.pos.x / maze.cellW) : ℚ) * maze.cellW)
              (((ratTrunc (b.pos.x / maze.cellW) : ℚ) + 1) * maze.cellW) b.radius
              (b.pos.x + b.vel.x * (17/20) * dt) (b.vel.x * (17/20))).1,
            (Ball.collideY
              (maze.atCell (ratTrunc (b.pos.x / maze.cellW)) (ratTrunc (b.pos.y / maze.cellH)))
              ((ratTrunc (b.pos.y / maze.cellH) : ℚ) * maze.cellH)
              (((ratTrunc (b.pos.y / maze.cellH) : ℚ) + 1) * maze.cellH) b.radius
              (b.pos.y + b.vel.y * (17/20) * dt) (b.vel.y * (17/20))).1⟩,
        ⟨(Ball.collideX
            (maze.atCell (ratTrunc (b.pos.x / maze.cellW)) (ratTrunc (b.pos.y / maze.cellH)))
            ((ratTrunc (b.pos.x / maze.cellW) : ℚ) * maze.cellW)
            (((ratTrunc (b.pos.x / maze.cellW) : ℚ) + 1) * maze.cellW) b.radius
            (b.pos.x + b.vel.x * (17/20) * dt) (b.vel.x * (17/20))).2,
          (Ball.collideY
            (maze.atCell (ratTrunc (b.pos.x / maze.cellW)) (ratTrunc (b.pos.y / maze.cellH)))
            ((ratTrunc (b.pos.y / maze.cellH) : ℚ) * maze.cellH)
            (((ratTrunc (b.pos.y / maze.cellH) : ℚ) + 1) * maze.cellH) b.radius
            (b.pos.y + b.vel.y * (17/20) * dt) (b.vel.y * (17/20))).2⟩) := by
  have hacc : Ball.accel R R b.g b.gain b.deadzone = ⟨0, 0⟩ :=
    accel_orthogonal_eq_zero R b.g b.gain b.deadzone hR hdz
  refine ⟨hacc, ?_, ?_⟩
  · simp only [Ball.update, h0, Bool.false_eq_true, if_false, hacc]
  · simp only [Ball.integrate]
    norm_num

/-- Witness for `first_update_zero_acceleration` at a concrete instance. -/
theorem first_update_zero_acceleration_witness :
    (({ pos := ⟨1/2, 1/2⟩, vel := ⟨3, 4⟩, radius := 1/10, hasFlatRef := false,
        R0 := 1, g := 981/100, gain := 1, deadzone := 3/100 } : Ball).hasFlatRef = false ∧
      (1 : M3).transpose * 1 = 1 ∧
      (0:ℚ) <
        ({ pos := ⟨1/2, 1/2⟩, vel := ⟨3, 4⟩, radius := 1/10, hasFlatRef := false,
           R0 := 1, g := 981/100, gain := 1, deadzone := 3/100 } : Ball).deadzone) ∧
    Ball.accel 1 1 (981/100) 1 (3/100) = ⟨0, 0⟩ :=
  ⟨⟨rfl, by simp, by norm_num⟩,
    (first_update_zero_acceleration
      { pos := ⟨1/2, 1/2⟩, vel := ⟨3, 4⟩, radius := 1/10, hasFlatRef := false,
        R0 := 1, g := 981/100, gain := 1, deadzone := 3/100 }
      1 (1/60) unitMaze rfl (by simp) (by norm_num)).1⟩

/-- C8: calling `PoseSmoother::smooth` with a degenerate input (empty
rotation or empty translation) is a no-op: the state is unchanged and
the in-place outputs are returned untouched, with no error signalled. -/
theorem pose_smoother_degenerate_noop (s : PoseSmoother) (tv : Option V3R) (rv : Option Quat) :
    PoseSmoother.smooth none tv s = (s, none, tv) ∧
    PoseSmoother.smooth rv none s = (s, rv, none) := by
  constructor
  · cases tv <;> rfl
  · cases rv <;> rfl

/-- C5: `PoseSmoother::smooth` on its first call stores the raw rotation
and translation verbatim, returns them unchanged and sets the validity
flag; on every later call with non-empty inputs it outputs the EMA
translation `(1-α)·t_prev + α·t_raw` and the rotation obtained by
sign-correcting the raw quaternion against the stored one (negating it
when the dot product is negative, so that the corrected dot product is
nonnegative) and then applying `slerp(q_prev, q_corrected, α)`; both
filtered values become the new stored state. -/
theorem pose_smoother_smooth_spec (s : PoseSmoother) (q : Quat) (t : V3R) :
    (s.hasPose = false →
      PoseSmoother.smooth (some q) (some t) s =
        ({ s with hasPose := true, rPrev := q, tPrev := t }, some q, some t)) ∧
    (s.hasPose = true →
      PoseSmoother.smooth (some q) (some t) s =
        ({ s with
            rPrev := slerpQ s.rPrev (if Quat.dot q s.rPrev < 0 then Quat.negQ q else q)
              s.alphaPose,
            tPrev := ⟨(1 - s.alphaPose) * s.tPrev.x + s.alphaPose * t.x,
              (1 - s.alphaPose) * s.tPrev.y + s.alphaPose * t.y,
              (1 - s.alphaPose) * s.tPrev.z + s.alphaPose * t.z⟩ },
          some (slerpQ s.rPrev (if Quat.dot q s.rPrev < 0 then Quat.negQ q else q) s.alphaPose),
          some ⟨(1 - s.alphaPose) * s.tPrev.x + s.alphaPose * t.x,
            (1 - s.alphaPose) * s.tPrev.y + s.alphaPose * t.y,
            (1 - s.alphaPose) * s.tPrev.z + s.alphaPose * t.z⟩)) ∧
    0 ≤ Quat.dot (if Quat.dot q s.rPrev < 0 then Quat.negQ q else q) s.rPrev := by
  refine ⟨fun h0 => ?_, fun h1 => ?_, ?_⟩
  · simp [PoseSmoother.smooth, h0]
  · simp [PoseSmoother.smooth, h1]
  · by_cases hd : Quat.dot q s.rPrev < 0
    · simp only [hd, if_pos]
      have : Quat.dot (Quat.negQ q) s.rPrev = -Quat.dot q s.rPrev := by
        simp [Quat.dot, Quat.negQ]; ring
      rw [this]
      linarith
    · simp only [hd, if_neg, if_false]
      linarith [not_lt.mp hd]

/-- Witness for `pose_smoother_smooth_spec` at a concrete instance. -/
theorem pose_smoother_smooth_spec_witness :
    (({ hasPose := false, rPrev := ⟨1, 0, 0, 0⟩, tPrev := ⟨0, 0, 0⟩,
        alphaPose := 1/4 } : PoseSmoother).hasPose = false) ∧
    PoseSmoother.smooth (some ⟨0, 1, 0, 0⟩) (some ⟨1, 2, 3⟩)
        { hasPose := false, rPrev := ⟨1, 0, 0, 0⟩, tPrev := ⟨0, 0, 0⟩, alphaPose := 1/4 } =
      ({ hasPose := true, rPrev := ⟨0, 1, 0, 0⟩, tPrev := ⟨1, 2, 3⟩, alphaPose := 1/4 },
        some ⟨0, 1, 0, 0⟩, some ⟨1, 2, 3⟩) :=
  ⟨rfl, (pose_smoother_smooth_spec
    { hasPose := false, rPrev := ⟨1, 0, 0, 0⟩, tPrev := ⟨0, 0, 0⟩, alphaPose := 1/4 }
    ⟨0, 1, 0, 0⟩ ⟨1, 2, 3⟩).1 rfl⟩

theorem quat_dot_comm (a b : Quat) : Quat.dot a b = Quat.dot b a := by
  simp only [Quat.dot]
  ring

theorem quat_dot_negQ_left (a b : Quat) : Quat.dot (Quat.negQ a) b = -Quat.dot a b := by
  simp only [Quat.dot, Quat.negQ]
  ring

theorem quat_dot_negQ_self (a : Quat) : Quat.dot (Quat.negQ a) (Quat.negQ a) = Quat.dot a a := by
  simp only [Quat.dot, Quat.negQ]
  ring

theorem quat_cauchy_schwarz (a b : Quat) :
    (Quat.dot a b) ^ 2 ≤ (Quat.dot a a) * (Quat.dot b b) := by
  simp only [Quat.dot]
  nlinarith [sq_nonneg (a.w * b.x - a.x * b.w), sq_nonneg (a.w * b.y - a.y * b.w),
    sq_nonneg (a.w * b.z - a.z * b.w), sq_nonneg (a.x * b.y - a.y * b.x),
    sq_nonneg (a.x * b.z - a.z * b.x), sq_nonneg (a.y * b.z - a.z * b.y)]

theorem quat_dot_combo (s t : ℝ) (p q r : Quat) :
    Quat.dot (Quat.add (Quat.smul s p) (Quat.smul t q)) r =
      s * Quat.dot p r + t * Quat.dot q r := by
  simp only [Quat.dot, Quat.add, Quat.smul]
  ring

/-- The angular distance from the previous pose to the SLERP output of one
smoothing step equals alpha times the shortest-arc angular distance from
the sign-corrected input to the previous pose. -/
theorem slerp_step_dist (p qc : Quat) (a : ℝ)
    (hp : Quat.dot p p = 1) (hqc : Quat.dot qc qc = 1)
    (hc : 0 ≤ Quat.dot p qc) (ha0 : 0 ≤ a) (ha1 : a ≤ 1) :
    angDist (slerpQ p qc a) p = a * Real.arccos (Quat.dot p qc) := by
  set c := Quat.dot p qc with hcdef
  have hcs : c ^ 2 ≤ 1 := by
    have h := quat_cauchy_schwarz p qc
    rw [hp, hqc] at h
    simpa [hcdef] using h
  have hc1 : c ≤ 1 := by nlinarith
  have hcm1 : (-1 : ℝ) ≤ c := by nlinarith
  set om := Real.arccos c with homdef
  have hom0 : 0 ≤ om := Real.arccos_nonneg c
  have homp2 : om ≤ Real.pi / 2 := Real.arccos_le_pi_div_two.mpr hc
  have hcos : Real.cos om = c := Real.cos_arccos hcm1 hc1
  by_cases hs : Real.sin om = 0
  · have hom_eq : om = 0 := by
      have := (Real.sin_eq_zero_iff_of_lt_of_lt
        (by linarith [Real.pi_pos]) (by linarith [Real.pi_pos])).mp hs
      exact this
    have hcval : c = 1 := by
      rw [← hcos, hom_eq, Real.cos_zero]
    rw [slerpQ]
    simp only [← hcdef, ← homdef, hs, if_pos]
    have hqp : Quat.dot qc p = 1 := by
      rw [quat_dot_comm, ← hcdef]
      exact hcval
    rw [angDist, hqp]
    simp [abs_one, Real.arccos_one, ← homdef, hom_eq]
  · have hsin_pos : 0 < Real.sin om := by
      rcases lt_or_eq_of_le (Real.sin_nonneg_of_nonneg_of_le_pi hom0
        (by linarith [Real.pi_pos])) with h | h
      · exact h
      · exact absurd h.symm hs
    have haom0 : 0 ≤ a * om := mul_nonneg ha0 hom0
    have haom_le : a * om ≤ om := by nlinarith
    have haom_pi2 : a * om ≤ Real.pi / 2 := le_trans haom_le homp2
    have hout : Quat.dot (slerpQ p qc a) p = Real.cos (a * om) := by
      rw [slerpQ]
      simp only [← hcdef, ← homdef, hs, if_neg, if_false]
      rw [quat_dot_combo, hp, quat_dot_comm qc p, ← hcdef]
      have hexp : (1 - a) * om = om - a * om := by ring
      rw [hexp, Real.sin_sub, ← hcos]
      field_simp
      ring
    rw [angDist, hout, abs_of_nonneg (Real.cos_nonneg_of_mem_Icc ⟨by linarith, haom_pi2⟩)]
    rw [Real.arccos_cos haom0 (by linarith [Real.pi_pos])]

/-- C6: for any previous state quaternion and any raw input rotation,
including the antipodal representative of the same physical rotation,
the smoothed output of `PoseSmoother::smooth` is within alpha times the
shortest-arc angular distance between the raw input and the previous
state: the sign correction makes the corrected dot product nonnegative
and the SLERP step moves exactly `alpha` of the shortest-arc angle, so
no discontinuous jump larger than the single-step SLERP step occurs. -/
theorem pose_smoother_slerp_step_bound (s : PoseSmoother) (q : Quat) (t : V3R)
    (h1 : s.hasPose = true)
    (hq : Quat.dot q q = 1) (hp : Quat.dot s.rPrev s.rPrev = 1)
    (ha0 : 0 ≤ s.alphaPose) (ha1 : s.alphaPose ≤ 1) :
    angDist ((PoseSmoother.smooth (some q) (some t) s).1).rPrev s.rPrev ≤
      s.alphaPose * angDist q s.rPrev := by
  have hout : ((PoseSmoother.smooth (some q) (some t) s).1).rPrev =
      slerpQ s.rPrev (if Quat.dot q s.rPrev < 0 then Quat.negQ q else q) s.alphaPose := by
    simp [PoseSmoother.smooth, h1]
  set qc := if Quat.dot q s.rPrev < 0 then Quat.negQ q else q with hqcdef
  have hqc1 : Quat.dot qc qc = 1 := by
    by_cases hd : Quat.dot q s.rPrev < 0
    · rw [hqcdef, if_pos hd, quat_dot_negQ_self]
      exact hq
    · rw [hqcdef, if_neg hd]
      exact hq
  have hcn : Quat.dot s.rPrev qc = |Quat.dot q s.rPrev| := by
    by_cases hd : Quat.dot q s.rPrev < 0
    · rw [hqcdef, if_pos hd, quat_dot_comm, quat_dot_negQ_left, abs_of_neg hd]
    · rw [hqcdef, if_neg hd, quat_dot_comm, abs_of_nonneg (not_lt.mp hd)]
  have hc0 : 0 ≤ Quat.dot s.rPrev qc := by
    rw [hcn]
    positivity
  have hdist := slerp_step_dist s.rPrev qc s.alphaPose hp hqc1 hc0 ha0 ha1
  rw [hout, hdist, hcn]
  simp [angDist]

/-- Witness for `pose_smoother_slerp_step_bound`: the previous pose is the
identity quaternion and the raw input is its antipodal representative. -/
theorem pose_smoother_slerp_step_bound_witness :
    (({ hasPose := true, rPrev := ⟨1, 0, 0, 0⟩, tPrev := ⟨0, 0, 0⟩,
        alphaPose := 1/4 } : PoseSmoother).hasPose = true ∧
      Quat.dot ⟨-1, 0, 0, 0⟩ ⟨-1, 0, 0, 0⟩ = 1 ∧
      Quat.dot ⟨1, 0, 0, 0⟩ ⟨1, 0, 0, 0⟩ = 1 ∧
      (0:ℝ) ≤ 1/4 ∧ (1/4 : ℝ) ≤ 1) ∧
    angDist ((PoseSmoother.smooth (some ⟨-1, 0, 0, 0⟩) (some ⟨0, 0, 0⟩)
        { hasPose := true, rPrev := ⟨1, 0, 0, 0⟩, tPrev := ⟨0, 0, 0⟩,
          alphaPose := 1/4 }).1).rPrev ⟨1, 0, 0, 0⟩ ≤
      (1/4 : ℝ) * angDist ⟨-1, 0, 0, 0⟩ ⟨1, 0, 0, 0⟩ :=
  ⟨⟨rfl, by norm_num [Quat.dot], by norm_num [Quat.dot], by norm_num, by norm_num⟩,
    pose_smoother_slerp_step_bound
      { hasPose := true, rPrev := ⟨1, 0, 0, 0⟩, tPrev := ⟨0, 0, 0⟩, alphaPose := 1/4 }
      ⟨-1, 0, 0, 0⟩ ⟨0, 0, 0⟩ rfl (by norm_num [Quat.dot]) (by norm_num [Quat.dot])
      (by norm_num) (by norm_num)⟩

theorem natIdx_lt {w h x y : ℕ} (hx : x < w) (hy : y < h) : y * w + x < w * h := by
  calc y * w + x < y * w + w := by omega
    _ = (y + 1) * w := by ring
    _ ≤ h * w := Nat.mul_le_mul_right w (by omega)
    _ = w * h := Nat.mul_comm h w

theorem natIdx_inj {w x1 y1 x2 y2 : ℕ} (hx1 : x1 < w) (hx2 : x2 < w)
    (heq : y1 * w + x1 = y2 * w + x2) : x1 = x2 ∧ y1 = y2 := by
  have hw : 0 < w := by omega
  have heq2 : x1 + y1 * w = x2 + y2 * w := by linarith
  have hmod := congrArg (fun t => t % w) heq2
  simp only [Nat.add_mul_mod_self_right] at hmod
  rw [Nat.mod_eq_of_lt hx1, Nat.mod_eq_of_lt hx2] at hmod
  subst hmod
  have hmul : y1 * w = y2 * w := by omega
  exact ⟨rfl, Nat.eq_of_mul_eq_mul_right hw hmul⟩

theorem list_getD_set {α : Type} (l : List α) (i j : ℕ) (c d : α)
    (hi : i < l.length) :
    (l.set i c).getD j d = if j = i then c else l.getD j d := by
  rw [List.getD_eq_getElem?_getD, List.getD_eq_getElem?_getD, List.getElem?_set]
  by_cases hji : j = i
  · subst hji
    simp [hi]
  · rw [if_neg (by omega : ¬ i = j), if_neg hji]

theorem countP_set_of_eq {α : Type} (pr : α → Bool) (l : List α) (i : ℕ) (c : α)
    (hi : i < l.length) (hpr : pr c = pr l[i]) :
    (l.set i c).countP pr = l.countP pr := by
  induction l generalizing i with
  | nil => simp at hi
  | cons a t ih =>
    cases i with
    | zero => simp_all [List.countP_cons]
    | succ n =>
      simp only [List.set]
      rw [List.countP_cons, List.countP_cons, ih n (by simpa using hi) (by simpa using hpr)]

theorem countP_set_dec {α : Type} (pr : α → Bool) (l : List α) (i : ℕ) (c : α)
    (hi : i < l.length) (hold : pr l[i] = true) (hnew : pr c = false) :
    (l.set i c).countP pr + 1 = l.countP pr := by
  induction l generalizing i with
  | nil => simp at hi
  | cons a t ih =>
    cases i with
    | zero => simp_all [List.countP_cons]
    | succ n =>
      simp only [List.set]
      rw [List.countP_cons, List.countP_cons]
      have := ih n (by simpa using hi) (by simpa using hold)
      omega

theorem cellG_in_range {w h : ℕ} (grid : List Cell) {x y : ℤ}
    (hx0 : 0 ≤ x) (hxw : x < (w : ℤ)) (hy0 : 0 ≤ y) (hyh : y < (h : ℤ)) :
    cellG w h grid x y = grid.getD (y.toNat * w + x.toNat) {} := by
  have hidx : (y * (w : ℤ) + x).toNat = y.toNat * w + x.toNat := by
    obtain ⟨a, rfl⟩ : ∃ a : ℕ, x = (a : ℤ) := ⟨x.toNat, (Int.toNat_of_nonneg hx0).symm⟩
    obtain ⟨b, rfl⟩ : ∃ b : ℕ, y = (b : ℤ) := ⟨y.toNat, (Int.toNat_of_nonneg hy0).symm⟩
    rw [← Nat.cast_mul, ← Nat.cast_add, Int.toNat_natCast, Int.toNat_natCast,
      Int.toNat_natCast]
  rw [cellG]
  simp only [if_neg (not_lt.mpr hx0), if_neg (not_lt.mpr hy0),
    if_neg (not_le.mpr hxw), if_neg (not_le.mpr hyh)]
  rw [hidx]

theorem updCell_in_range {w h : ℕ} (grid : List Cell) {x y : ℤ} (f : Cell → Cell)
    (hx0 : 0 ≤ x) (hxw : x < (w : ℤ)) (hy0 : 0 ≤ y) (hyh : y < (h : ℤ)) :
    updCell w h grid x y f =
      grid.set (y.toNat * w + x.toNat) (f (grid.getD (y.toNat * w + x.toNat) {})) := by
  have hidx : (y * (w : ℤ) + x).toNat = y.toNat * w + x.toNat := by
    obtain ⟨a, rfl⟩ : ∃ a : ℕ, x = (a : ℤ) := ⟨x.toNat, (Int.toNat_of_nonneg hx0).symm⟩
    obtain ⟨b, rfl⟩ : ∃ b : ℕ, y = (b : ℤ) := ⟨y.toNat, (Int.toNat_of_nonneg hy0).symm⟩
    rw [← Nat.cast_mul, ← Nat.cast_add, Int.toNat_natCast, Int.toNat_natCast,
      Int.toNat_natCast]
  rw [updCell]
  simp only [if_neg (not_lt.mpr hx0), if_neg (not_lt.mpr hy0),
    if_neg (not_le.mpr hxw), if_neg (not_le.mpr hyh)]
  rw [hidx]

theorem length_updCell {w h : ℕ} (grid : List Cell) (x y : ℤ) (f : Cell → Cell) :
    (updCell w h grid x y f).length = grid.length := by
  rw [updCell]
  exact List.length_set ..

/-- Reading back after an in-range write through `Maze::at`. -/
theorem cellG_updCell {w h : ℕ} (grid : List Cell) {x0 y0 x y : ℤ} (f : Cell → Cell)
    (hlen : grid.length = w * h)
    (h0 : inGrid w h (x0, y0)) (h1 : inGrid w h (x, y)) :
    cellG w h (updCell w h grid x0 y0 f) x y =
      if x = x0 ∧ y = y0 then f (cellG w h grid x0 y0) else cellG w h grid x y := by
  obtain ⟨hx00, hx0w, hy00, hy0h⟩ := h0
  obtain ⟨hx10, hx1w, hy10, hy1h⟩ := h1
  simp only at hx00 hx0w hy00 hy0h hx10 hx1w hy10 hy1h
  have hxw : x0.toNat < w := by omega
  have hyh : y0.toNat < h := by omega
  have hxw1 : x.toNat < w := by omega
  have hyh1 : y.toNat < h := by omega
  have hi : y0.toNat * w + x0.toNat < grid.length := by
    rw [hlen]
    exact natIdx_lt hxw hyh
  rw [updCell_in_range grid f hx00 hx0w hy00 hy0h,
    cellG_in_range _ hx10 hx1w hy10 hy1h,
    cellG_in_range grid hx00 hx0w hy00 hy0h,
    cellG_in_range grid hx10 hx1w hy10 hy1h,
    list_getD_set _ _ _ _ _ hi]
  by_cases hc : x = x0 ∧ y = y0
  · rw [if_pos hc]
    rw [if_pos (by rw [hc.1, hc.2])]
  · rw [if_neg hc]
    rw [if_neg ?_]
    intro hidx
    obtain ⟨he1, he2⟩ := natIdx_inj hxw1 hxw hidx
    exact hc ⟨by omega, by omega⟩

theorem getD_mod_mem {α : Type} (l : List α) (m : ℕ) (d : α) (h : l.length ≠ 0) :
    l.getD (m % l.length) d ∈ l := by
  have hlt : m % l.length < l.length := Nat.mod_lt _ (by omega)
  rw [List.getD_eq_getElem l d hlt]
  exact List.getElem_mem hlt

/-- Adding an edge towards an isolated vertex preserves acyclicity. -/
theorem isAcyclic_add_isolated_edge {V : Type} [DecidableEq V] {G G2 : SimpleGraph V} {u v : V}
    (huv : u ≠ v) (hG : G.IsAcyclic)
    (hiso : ∀ x, ¬G.Adj v x)
    (hchar : ∀ x y, G2.Adj x y ↔ G.Adj x y ∨ (x = u ∧ y = v) ∨ (x = v ∧ y = u)) :
    G2.IsAcyclic := by
  intro x c hc
  by_cases hv : v ∈ c.support
  · have hc2 : (c.rotate hv).IsCycle := hc.rotate hv
    have hlen3 : 3 ≤ (c.rotate hv).length := hc2.three_le_length
    have hnotnil : ¬(c.rotate hv).Nil := hc2.not_nil
    obtain ⟨y, hadj, p, hpdef⟩ := SimpleGraph.Walk.not_nil_iff.mp hnotnil
    have hyu : u = y := by
      rcases (hchar v y).mp hadj with hA | ⟨h1, h2⟩ | ⟨h1, h2⟩
      · exact absurd hA (hiso y)
      · exact absurd h1.symm huv
      · exact h2.symm
    subst hyu
    rw [hpdef] at hc2 hlen3
    rw [SimpleGraph.Walk.cons_isCycle_iff] at hc2
    obtain ⟨hpath, hedge⟩ := hc2
    simp only [SimpleGraph.Walk.length_cons] at hlen3
    have hrevnotnil : ¬p.reverse.Nil := by
      rw [SimpleGraph.Walk.not_nil_iff_lt_length, SimpleGraph.Walk.length_reverse]
      omega
    obtain ⟨z, hadj2, q, hqdef⟩ := SimpleGraph.Walk.not_nil_iff.mp hrevnotnil
    have hzu : u = z := by
      rcases (hchar v z).mp hadj2 with hA | ⟨h1, h2⟩ | ⟨h1, h2⟩
      · exact absurd hA (hiso z)
      · exact absurd h1.symm huv
      · exact h2.symm
    subst hzu
    have hmem : s(v, u) ∈ p.reverse.edges := by
      rw [hqdef, SimpleGraph.Walk.edges_cons]
      exact List.mem_cons_self _ _
    rw [SimpleGraph.Walk.edges_reverse, List.mem_reverse] at hmem
    exact hedge hmem
  · have hsub : ∀ e ∈ c.edges, e ∈ G.edgeSet := by
      intro e he
      induction e with
      | _ a b =>
        have hadj := c.adj_of_mem_edges he
        rcases (hchar a b).mp hadj with hA | ⟨h1, h2⟩ | ⟨h1, h2⟩
        · exact hA
        · subst h2
          exact absurd (c.snd_mem_support_of_mem_edges he) hv
        · subst h1
          exact absurd (c.fst_mem_support_of_mem_edges he) hv
    exact hG (c.transfer G hsub) (hc.transfer hsub)

theorem mem_unvisitedNeighbors {w h : ℕ} {grid : List Cell} {cx cy : ℤ} {p : ℤ × ℤ}
    (hp : p ∈ unvisitedNeighbors w h grid cx cy) :
    ∃ d ∈ mazeDirs, p = (cx + d.1, cy + d.2) ∧ inGrid w h p ∧ ¬visC w h grid p := by
  rw [unvisitedNeighbors, List.mem_filterMap] at hp
  obtain ⟨d, hd, hfd⟩ := hp
  simp only at hfd
  by_cases hcond : 0 ≤ cx + d.1 ∧ cx + d.1 < (w : ℤ) ∧ 0 ≤ cy + d.2 ∧ cy + d.2 < (h : ℤ) ∧
      (cellG w h grid (cx + d.1) (cy + d.2)).visited = false
  · rw [if_pos hcond] at hfd
    obtain ⟨h1, h2, h3, h4, h5⟩ := hcond
    have hpd : p = (cx + d.1, cy + d.2) := (Option.some.inj hfd).symm
    refine ⟨d, hd, hpd, ?_, ?_⟩
    · rw [hpd]
      exact ⟨h1, h2, h3, h4⟩
    · rw [hpd]
      simp [visC, h5]
  · rw [if_neg hcond] at hfd
    exact absurd hfd (by simp)

theorem unvisitedNeighbors_nil {w h : ℕ} {grid : List Cell} {cx cy : ℤ}
    (hnil : (unvisitedNeighbors w h grid cx cy).length = 0)
    (d : ℤ × ℤ) (hd : d ∈ mazeDirs)
    (hin : inGrid w h (cx + d.1, cy + d.2)) :
    visC w h grid (cx + d.1, cy + d.2) := by
  rw [List.length_eq_zero] at hnil
  rw [unvisitedNeighbors, List.filterMap_eq_nil_iff] at hnil
  have hnone := hnil d hd
  simp only at hnone
  by_cases hcond : 0 ≤ cx + d.1 ∧ cx + d.1 < (w : ℤ) ∧ 0 ≤ cy + d.2 ∧ cy + d.2 < (h : ℤ) ∧
      (cellG w h grid (cx + d.1) (cy + d.2)).visited = false
  · rw [if_pos hcond] at hnone
    exact absurd hnone (by simp)
  · obtain ⟨h1, h2, h3, h4⟩ := hin
    simp only at h1 h2 h3 h4
    rw [visC]
    by_contra hvf
    exact hcond ⟨h1, h2, h3, h4, by simpa using hvf⟩

theorem vertex_inGrid {w h : ℕ} (a : MazeVertex w h) :
    inGrid w h ((((a.1 : ℕ) : ℤ)), (((a.2 : ℕ) : ℤ))) := by
  refine ⟨?_, ?_, ?_, ?_⟩ <;> dsimp only
  · positivity
  · exact_mod_cast a.1.isLt
  · positivity
  · exact_mod_cast a.2.isLt

theorem toV_fst {w h : ℕ} (p : ℤ × ℤ) (hp : inGrid w h p) :
    ((((toV w h p hp).1 : ℕ)) : ℤ) = p.1 := by
  simp only [toV]
  exact Int.toNat_of_nonneg hp.1

theorem toV_snd {w h : ℕ} (p : ℤ × ℤ) (hp : inGrid w h p) :
    ((((toV w h p hp).2 : ℕ)) : ℤ) = p.2 := by
  simp only [toV]
  exact Int.toNat_of_nonneg hp.2.2.1

theorem eq_toV_iff {w h : ℕ} (a : MazeVertex w h) (p : ℤ × ℤ) (hp : inGrid w h p) :
    a = toV w h p hp ↔ (((a.1 : ℕ) : ℤ) = p.1 ∧ ((a.2 : ℕ) : ℤ) = p.2) := by
  constructor
  · intro ha
    subst ha
    exact ⟨toV_fst p hp, toV_snd p hp⟩
  · rintro ⟨h1, h2⟩
    have e1 : (a.1 : ℕ) = p.1.toNat := by omega
    have e2 : (a.2 : ℕ) = p.2.toNat := by omega
    refine Prod.ext ?_ ?_
    · exact Fin.ext e1
    · exact Fin.ext e2

theorem passStep_mono {w h : ℕ} {grid g3 : List Cell}
    (hE : ∀ x y : ℤ, inGrid w h (x, y) → (cellG w h grid x y).wE = false →
      (cellG w h g3 x y).wE = false)
    (hS : ∀ x y : ℤ, inGrid w h (x, y) → (cellG w h grid x y).wS = false →
      (cellG w h g3 x y).wS = false)
    {p q : ℤ × ℤ} (hpq : passStep w h grid p q) : passStep w h g3 p q := by
  obtain ⟨hp, hq, hdis⟩ := hpq
  refine ⟨hp, hq, ?_⟩
  have hp2 : inGrid w h (p.1, p.2) := hp
  have hq2 : inGrid w h (q.1, q.2) := hq
  rcases hdis with ⟨h1, h2, h3⟩ | ⟨h1, h2, h3⟩ | ⟨h1, h2, h3⟩ | ⟨h1, h2, h3⟩
  · exact Or.inl ⟨h1, h2, hE p.1 p.2 hp2 h3⟩
  · exact Or.inr (Or.inl ⟨h1, h2, hE q.1 q.2 hq2 h3⟩)
  · exact Or.inr (Or.inr (Or.inl ⟨h1, h2, hS p.1 p.2 hp2 h3⟩))
  · exact Or.inr (Or.inr (Or.inr ⟨h1, h2, hS q.1 q.2 hq2 h3⟩))

theorem passStep_adj {w h : ℕ} {grid : List Cell} {p q : ℤ × ℤ}
    (hp : inGrid w h p) (hq : inGrid w h q) (hpq : passStep w h grid p q) :
    (mazeGraph w h grid).Adj (toV w h p hp) (toV w h q hq) := by
  obtain ⟨hp2, hq2, hdis⟩ := hpq
  have ep1 := toV_fst p hp
  have ep2 := toV_snd p hp
  have eq1 := toV_fst q hq
  have eq2 := toV_snd q hq
  rcases hdis with ⟨h1, h2, h3⟩ | ⟨h1, h2, h3⟩ | ⟨h1, h2, h3⟩ | ⟨h1, h2, h3⟩
  · refine Or.inl ⟨by omega, by omega, ?_⟩
    rw [ep1, ep2]
    exact h3
  · refine Or.inr (Or.inl ⟨by omega, by omega, ?_⟩)
    rw [eq1, eq2]
    exact h3
  · refine Or.inr (Or.inr (Or.inl ⟨by omega, by omega, ?_⟩))
    rw [ep1, ep2]
    exact h3
  · refine Or.inr (Or.inr (Or.inr ⟨by omega, by omega, ?_⟩))
    rw [eq1, eq2]
    exact h3

theorem genInv_push (w h : ℕ) (grid g3 : List Cell) (stack : List (ℤ × ℤ)) (cx cy nx ny : ℤ)
    (inv : GenInv w h grid ((cx, cy) :: stack))
    (hin : inGrid w h (nx, ny))
    (hnv : ¬visC w h grid (nx, ny))
    (hadj : (nx = cx + 1 ∧ ny = cy) ∨ (cx = nx + 1 ∧ ny = cy) ∨
            (ny = cy + 1 ∧ nx = cx) ∨ (cy = ny + 1 ∧ nx = cx))
    (hlen : g3.length = grid.length)
    (hvis : ∀ p : ℤ × ℤ, inGrid w h p → (visC w h g3 p ↔ (visC w h grid p ∨ p = (nx, ny))))
    (hEiff : ∀ x y : ℤ, inGrid w h (x, y) →
      ((cellG w h g3 x y).wE = false ↔ (cellG w h grid x y).wE = false ∨
        ((x, y) = (cx, cy) ∧ ((x + 1 : ℤ), y) = (nx, ny)) ∨
        ((x, y) = (nx, ny) ∧ ((x + 1 : ℤ), y) = (cx, cy))))
    (hSiff : ∀ x y : ℤ, inGrid w h (x, y) →
      ((cellG w h g3 x y).wS = false ↔ (cellG w h grid x y).wS = false ∨
        ((x, y) = (cx, cy) ∧ (x, (y + 1 : ℤ)) = (nx, ny)) ∨
        ((x, y) = (nx, ny) ∧ (x, (y + 1 : ℤ)) = (cx, cy)))) :
    GenInv w h g3 ((nx, ny) :: (cx, cy) :: stack) := by
  have hcin : inGrid w h (cx, cy) := inv.stackIn _ (List.mem_cons_self _ _)
  have hcvis : visC w h grid (cx, cy) := inv.stackVis _ (List.mem_cons_self _ _)
  obtain ⟨hcx0, hcxw, hcy0, hcyh⟩ := hcin
  obtain ⟨hnx0, hnxw, hny0, hnyh⟩ := hin
  simp only at hcx0 hcxw hcy0 hcyh hnx0 hnxw hny0 hnyh
  have hcin : inGrid w h (cx, cy) := ⟨hcx0, hcxw, hcy0, hcyh⟩
  have hin : inGrid w h (nx, ny) := ⟨hnx0, hnxw, hny0, hnyh⟩
  have hw0 : 0 < w := by omega
  have hh0 : 0 < h := by omega
  have hne : (nx, ny) ≠ (cx, cy) := by
    rcases hadj with ⟨h1, h2⟩ | ⟨h1, h2⟩ | ⟨h1, h2⟩ | ⟨h1, h2⟩ <;>
      (intro hcon; rw [Prod.mk.injEq] at hcon; omega)
  have hEmono : ∀ x y : ℤ, inGrid w h (x, y) → (cellG w h grid x y).wE = false →
      (cellG w h g3 x y).wE = false := by
    intro x y hxy hold
    exact (hEiff x y hxy).mpr (Or.inl hold)
  have hSmono : ∀ x y : ℤ, inGrid w h (x, y) → (cellG w h grid x y).wS = false →
      (cellG w h g3 x y).wS = false := by
    intro x y hxy hold
    exact (hSiff x y hxy).mpr (Or.inl hold)
  have hvis3n : visC w h g3 (nx, ny) := (hvis _ hin).mpr (Or.inr rfl)
  have hvis3 : ∀ p : ℤ × ℤ, inGrid w h p → visC w h grid p → visC w h g3 p := by
    intro p hp hv
    exact (hvis p hp).mpr (Or.inl hv)
  have hnewpass : passStep w h g3 (cx, cy) (nx, ny) := by
    refine ⟨hcin, hin, ?_⟩
    rcases hadj with ⟨h1, h2⟩ | ⟨h1, h2⟩ | ⟨h1, h2⟩ | ⟨h1, h2⟩
    · exact Or.inl ⟨h2, h1, (hEiff cx cy hcin).mpr
        (Or.inr (Or.inl ⟨rfl, by rw [Prod.mk.injEq]; omega⟩))⟩
    · exact Or.inr (Or.inl ⟨h2, h1, (hEiff nx ny hin).mpr
        (Or.inr (Or.inr ⟨rfl, by rw [Prod.mk.injEq]; omega⟩))⟩)
    · exact Or.inr (Or.inr (Or.inl ⟨h2, h1, (hSiff cx cy hcin).mpr
        (Or.inr (Or.inl ⟨rfl, by rw [Prod.mk.injEq]; omega⟩))⟩))
    · exact Or.inr (Or.inr (Or.inr ⟨h2, h1, (hSiff nx ny hin).mpr
        (Or.inr (Or.inr ⟨rfl, by rw [Prod.mk.injEq]; omega⟩))⟩))
  refine ⟨hlen ▸ inv.len, ?_, ?_, ?_, ?_, ?_, ?_, ?_, ?_, ?_⟩
  · -- rootVis
    refine hvis3 (0, 0) ⟨le_refl 0, ?_, le_refl 0, ?_⟩ inv.rootVis
    · show (0 : ℤ) < (w : ℤ)
      exact_mod_cast hw0
    · show (0 : ℤ) < (h : ℤ)
      exact_mod_cast hh0
  · -- stackIn
    intro p hp
    rcases List.mem_cons.mp hp with rfl | hp2
    · exact hin
    · exact inv.stackIn p hp2
  · -- stackVis
    intro p hp
    rcases List.mem_cons.mp hp with rfl | hp2
    · exact hvis3n
    · exact hvis3 p (inv.stackIn p hp2) (inv.stackVis p hp2)
  · -- stackNd
    refine List.Nodup.cons ?_ inv.stackNd
    intro hmem
    exact hnv (inv.stackVis _ hmem)
  · -- offStack
    intro p hp hv hnst d hd hdin
    have hpnotn : p ≠ (nx, ny) := by
      intro hcon
      exact hnst (hcon ▸ List.mem_cons_self _ _)
    have hvold : visC w h grid p := by
      rcases (hvis p hp).mp hv with h1 | h1
      · exact h1
      · exact absurd h1 hpnotn
    have hnst2 : p ∉ (cx, cy) :: stack := fun hmem => hnst (List.mem_cons_of_mem _ hmem)
    exact hvis3 _ hdin (inv.offStack p hp hvold hnst2 d hd hdin)
  · -- wallsE
    intro x y hxy hfl
    rcases (hEiff x y hxy).mp hfl with hold | ⟨h1, h2⟩ | ⟨h1, h2⟩
    · obtain ⟨hb, hv1, hv2⟩ := inv.wallsE x y hxy hold
      obtain ⟨ha1, ha2, ha3, ha4⟩ := hxy
      simp only at ha1 ha2 ha3 ha4
      exact ⟨hb, hvis3 _ ⟨ha1, ha2, ha3, ha4⟩ hv1, hvis3 _ ⟨by omega, hb, ha3, ha4⟩ hv2⟩
    · rw [Prod.mk.injEq] at h1 h2
      refine ⟨by omega, ?_, ?_⟩
      · exact hvis3 _ hxy (by rw [show ((x : ℤ), (y : ℤ)) = (cx, cy) from by
          rw [Prod.mk.injEq]; omega] ; exact hcvis)
      · rw [show ((x + 1 : ℤ), (y : ℤ)) = (nx, ny) from by rw [Prod.mk.injEq]; omega]
        exact hvis3n
    · rw [Prod.mk.injEq] at h1 h2
      refine ⟨by omega, ?_, ?_⟩
      · rw [show ((x : ℤ), (y : ℤ)) = (nx, ny) from by rw [Prod.mk.injEq]; omega]
        exact hvis3n
      · rw [show ((x + 1 : ℤ), (y : ℤ)) = (cx, cy) from by rw [Prod.mk.injEq]; omega]
        exact hvis3 _ hcin hcvis
  · -- wallsS
    intro x y hxy hfl
    rcases (hSiff x y hxy).mp hfl with hold | ⟨h1, h2⟩ | ⟨h1, h2⟩
    · obtain ⟨hb, hv1, hv2⟩ := inv.wallsS x y hxy hold
      obtain ⟨ha1, ha2, ha3, ha4⟩ := hxy
      simp only at ha1 ha2 ha3 ha4
      exact ⟨hb, hvis3 _ ⟨ha1, ha2, ha3, ha4⟩ hv1, hvis3 _ ⟨ha1, ha2, by omega, hb⟩ hv2⟩
    · rw [Prod.mk.injEq] at h1 h2
      refine ⟨by omega, ?_, ?_⟩
      · exact hvis3 _ hxy (by rw [show ((x : ℤ), (y : ℤ)) = (cx, cy) from by
          rw [Prod.mk.injEq]; omega] ; exact hcvis)
      · rw [show ((x : ℤ), (y + 1 : ℤ)) = (nx, ny) from by rw [Prod.mk.injEq]; omega]
        exact hvis3n
    · rw [Prod.mk.injEq] at h1 h2
      refine ⟨by omega, ?_, ?_⟩
      · rw [show ((x : ℤ), (y : ℤ)) = (nx, ny) from by rw [Prod.mk.injEq]; omega]
        exact hvis3n
      · rw [show ((x : ℤ), (y + 1 : ℤ)) = (cx, cy) from by rw [Prod.mk.injEq]; omega]
        exact hvis3 _ hcin hcvis
  · -- reach
    intro p hp hv
    have hmono : ∀ a b : ℤ × ℤ, passStep w h grid a b → passStep w h g3 a b :=
      fun a b => passStep_mono hEmono hSmono
    rcases (hvis p hp).mp hv with hold | hpn
    · exact Relation.ReflTransGen.mono hmono (inv.reach p hp hold)
    · subst hpn
      have hrc : reachC w h g3 (0, 0) (cx, cy) :=
        Relation.ReflTransGen.mono hmono (inv.reach _ hcin hcvis)
      exact Relation.ReflTransGen.tail hrc hnewpass
  · -- acyc
    have hcvV : (toV w h (nx, ny) hin) ≠ (toV w h (cx, cy) hcin) := by
      intro hcon
      rw [eq_toV_iff, toV_fst, toV_snd] at hcon
      exact hne (by rw [Prod.mk.injEq]; exact ⟨hcon.1, hcon.2⟩)
    have huvne : toV w h (cx, cy) hcin ≠ toV w h (nx, ny) hin :=
      fun hcon => hcvV hcon.symm
    refine isAcyclic_add_isolated_edge huvne inv.acyc ?_ ?_
    · -- isolation of the unvisited cell
      intro b hb
      have hbin := vertex_inGrid b
      rcases hb with ⟨h1, h2, h3⟩ | ⟨h1, h2, h3⟩ | ⟨h1, h2, h3⟩ | ⟨h1, h2, h3⟩
      · obtain ⟨_, hv1, _⟩ := inv.wallsE _ _ (vertex_inGrid _) h3
        rw [toV_fst, toV_snd] at hv1
        exact hnv hv1
      · obtain ⟨_, _, hv2⟩ := inv.wallsE _ _ hbin h3
        have e1 : ((b.1 : ℕ) : ℤ) + 1 = nx := by
          have := toV_fst (nx, ny) hin
          simp only at this
          omega
        have e2 : ((b.2 : ℕ) : ℤ) = ny := by
          have h2V := toV_snd (nx, ny) hin
          simp only at h2V
          omega
        rw [show (((b.1 : ℕ) : ℤ) + 1, ((b.2 : ℕ) : ℤ)) = (nx, ny) from by
          rw [Prod.mk.injEq]; exact ⟨e1, e2⟩] at hv2
        exact hnv hv2
      · obtain ⟨_, hv1, _⟩ := inv.wallsS _ _ (vertex_inGrid _) h3
        rw [toV_fst, toV_snd] at hv1
        exact hnv hv1
      · obtain ⟨_, _, hv2⟩ := inv.wallsS _ _ hbin h3
        have e1 : ((b.1 : ℕ) : ℤ) = nx := by
          have := toV_fst (nx, ny) hin
          simp only at this
          omega
        have e2 : ((b.2 : ℕ) : ℤ) + 1 = ny := by
          have h2V := toV_snd (nx, ny) hin
          simp only at h2V
          omega
        rw [show (((b.1 : ℕ) : ℤ), ((b.2 : ℕ) : ℤ) + 1) = (nx, ny) from by
          rw [Prod.mk.injEq]; exact ⟨e1, e2⟩] at hv2
        exact hnv hv2
    · -- adjacency characterisation
      intro a b
      have hain := vertex_inGrid a
      have hbin := vertex_inGrid b
      have hna := toV_fst (nx, ny) hin
      have hnb := toV_snd (nx, ny) hin
      have hca := toV_fst (cx, cy) hcin
      have hcb := toV_snd (cx, cy) hcin
      simp only at hna hnb hca hcb
      constructor
      · intro hab
        rcases hab with ⟨h1, h2, h3⟩ | ⟨h1, h2, h3⟩ | ⟨h1, h2, h3⟩ | ⟨h1, h2, h3⟩
        · rcases (hEiff _ _ hain).mp h3 with hold | ⟨p1, p2⟩ | ⟨p1, p2⟩
          · exact Or.inl (Or.inl ⟨h1, h2, hold⟩)
          · rw [Prod.mk.injEq] at p1 p2
            refine Or.inr (Or.inl ⟨?_, ?_⟩)
            · rw [eq_toV_iff]
              exact ⟨p1.1, p1.2⟩
            · rw [eq_toV_iff]
              constructor
              · simp only
                omega
              · simp only
                omega
          · rw [Prod.mk.injEq] at p1 p2
            refine Or.inr (Or.inr ⟨?_, ?_⟩)
            · rw [eq_toV_iff]
              exact ⟨p1.1, p1.2⟩
            · rw [eq_toV_iff]
              constructor
              · simp only
                omega
              · simp only
                omega
        · rcases (hEiff _ _ hbin).mp h3 with hold | ⟨p1, p2⟩ | ⟨p1, p2⟩
          · exact Or.inl (Or.inr (Or.inl ⟨h1, h2, hold⟩))
          · rw [Prod.mk.injEq] at p1 p2
            refine Or.inr (Or.inr ⟨?_, ?_⟩)
            · rw [eq_toV_iff]
              constructor
              · simp only
                omega
              · simp only
                omega
            · rw [eq_toV_iff]
              exact ⟨p1.1, p1.2⟩
          · rw [Prod.mk.injEq] at p1 p2
            refine Or.inr (Or.inl ⟨?_, ?_⟩)
            · rw [eq_toV_iff]
              constructor
              · simp only
                omega
              · simp only
                omega
            · rw [eq_toV_iff]
              exact ⟨p1.1, p1.2⟩
        · rcases (hSiff _ _ hain).mp h3 with hold | ⟨p1, p2⟩ | ⟨p1, p2⟩
          · exact Or.inl (Or.inr (Or.inr (Or.inl ⟨h1, h2, hold⟩)))
          · rw [Prod.mk.injEq] at p1 p2
            refine Or.inr (Or.inl ⟨?_, ?_⟩)
            · rw [eq_toV_iff]
              exact ⟨p1.1, p1.2⟩
            · rw [eq_toV_iff]
              constructor
              · simp only
                omega
              · simp only
                omega
          · rw [Prod.mk.injEq] at p1 p2
            refine Or.inr (Or.inr ⟨?_, ?_⟩)
            · rw [eq_toV_iff]
              exact ⟨p1.1, p1.2⟩
            · rw [eq_toV_iff]
              constructor
              · simp only
                omega
              · simp only
                omega
        · rcases (hSiff _ _ hbin).mp h3 with hold | ⟨p1, p2⟩ | ⟨p1, p2⟩
          · exact Or.inl (Or.inr (Or.inr (Or.inr ⟨h1, h2, hold⟩)))
          · rw [Prod.mk.injEq] at p1 p2
            refine Or.inr (Or.inr ⟨?_, ?_⟩)
            · rw [eq_toV_iff]
              constructor
              · simp only
                omega
              · simp only
                omega
            · rw [eq_toV_iff]
              exact ⟨p1.1, p1.2⟩
          · rw [Prod.mk.injEq] at p1 p2
            refine Or.inr (Or.inl ⟨?_, ?_⟩)
            · rw [eq_toV_iff]
              constructor
              · simp only
                omega
              · simp only
                omega
            · rw [eq_toV_iff]
              exact ⟨p1.1, p1.2⟩
      · intro hor
        rcases hor with hab | ⟨ha, hb⟩ | ⟨ha, hb⟩
        · rcases hab with ⟨h1, h2, h3⟩ | ⟨h1, h2, h3⟩ | ⟨h1, h2, h3⟩ | ⟨h1, h2, h3⟩
          · exact Or.inl ⟨h1, h2, hEmono _ _ hain h3⟩
          · exact Or.inr (Or.inl ⟨h1, h2, hEmono _ _ hbin h3⟩)
          · exact Or.inr (Or.inr (Or.inl ⟨h1, h2, hSmono _ _ hain h3⟩))
          · exact Or.inr (Or.inr (Or.inr ⟨h1, h2, hSmono _ _ hbin h3⟩))
        · subst ha
          subst hb
          exact passStep_adj hcin hin hnewpass
        · subst ha
          subst hb
          exact (mazeGraph w h g3).symm (passStep_adj hcin hin hnewpass)

theorem carve_cell_eqs {w h : ℕ} (grid : List Cell) {cx cy nx ny : ℤ}
    (f_c f_n : Cell → Cell)
    (hlen0 : grid.length = w * h)
    (hc : inGrid w h (cx, cy)) (hn : inGrid w h (nx, ny)) (hne : ¬(nx = cx ∧ ny = cy)) :
    (updCell w h (updCell w h (updCell w h grid cx cy f_c) nx ny f_n) nx ny
        (fun c => { c with visited := true })).length = grid.length ∧
    (∀ x y : ℤ, inGrid w h (x, y) →
      cellG w h (updCell w h (updCell w h (updCell w h grid cx cy f_c) nx ny f_n) nx ny
          (fun c => { c with visited := true })) x y =
        if x = nx ∧ y = ny then { f_n (cellG w h grid nx ny) with visited := true }
        else if x = cx ∧ y = cy then f_c (cellG w h grid cx cy)
        else cellG w h grid x y) := by
  have hlen1 : (updCell w h grid cx cy f_c).length = w * h := by
    rw [length_updCell]
    exact hlen0
  have hlen2 : (updCell w h (updCell w h grid cx cy f_c) nx ny f_n).length = w * h := by
    rw [length_updCell]
    exact hlen1
  constructor
  · rw [length_updCell, length_updCell, length_updCell]
  · intro x y hxy
    rw [cellG_updCell _ _ hlen2 hn hxy, cellG_updCell _ _ hlen1 hn hn,
      cellG_updCell _ _ hlen0 hc hn]
    by_cases hxn : x = nx ∧ y = ny
    · rw [if_pos hxn, if_pos hxn, if_pos ⟨rfl, rfl⟩, if_neg hne]
    · rw [if_neg hxn, if_neg hxn, cellG_updCell _ _ hlen1 hn hxy, if_neg hxn,
        cellG_updCell _ _ hlen0 hc hxy]

theorem carve_unvisited_dec {w h : ℕ} (grid : List Cell) {cx cy nx ny : ℤ}
    (f_c f_n : Cell → Cell)
    (hfc : ∀ c, (f_c c).visited = c.visited) (hfn : ∀ c, (f_n c).visited = c.visited)
    (hlen0 : grid.length = w * h)
    (hc : inGrid w h (cx, cy)) (hn : inGrid w h (nx, ny))
    (hnv : ¬visC w h grid (nx, ny)) :
    unvisitedCount (updCell w h (updCell w h (updCell w h grid cx cy f_c) nx ny f_n) nx ny
        (fun c => { c with visited := true })) + 1 = unvisitedCount grid := by
  obtain ⟨hcx0, hcxw, hcy0, hcyh⟩ := hc
  obtain ⟨hnx0, hnxw, hny0, hnyh⟩ := hn
  simp only at hcx0 hcxw hcy0 hcyh hnx0 hnxw hny0 hnyh
  have hvn : (grid.getD (ny.toNat * w + nx.toNat) {}).visited = false := by
    rw [visC, cellG_in_range grid hnx0 hnxw hny0 hnyh] at hnv
    simpa using hnv
  have hidxC : cy.toNat * w + cx.toNat < grid.length := by
    rw [hlen0]
    exact natIdx_lt (by omega) (by omega)
  have hlen1 : (updCell w h grid cx cy f_c).length = grid.length := length_updCell ..
  have hlen2 : (updCell w h (updCell w h grid cx cy f_c) nx ny f_n).length = grid.length := by
    rw [length_updCell, hlen1]
  have hidxN1 : ny.toNat * w + nx.toNat < (updCell w h grid cx cy f_c).length := by
    rw [hlen1, hlen0]
    exact natIdx_lt (by omega) (by omega)
  have hidxN2 : ny.toNat * w + nx.toNat <
      (updCell w h (updCell w h grid cx cy f_c) nx ny f_n).length := by
    rw [hlen2, hlen0]
    exact natIdx_lt (by omega) (by omega)
  have hg1v : ((updCell w h grid cx cy f_c).getD (ny.toNat * w + nx.toNat) {}).visited
      = false := by
    rw [updCell_in_range grid f_c hcx0 hcxw hcy0 hcyh,
      list_getD_set grid _ _ _ _ hidxC]
    by_cases hix : ny.toNat * w + nx.toNat = cy.toNat * w + cx.toNat
    · rw [if_pos hix, hfc, List.getD_eq_getElem grid {} hidxC] at *
      rw [← List.getD_eq_getElem grid {} hidxC, ← hix]
      exact hvn
    · rw [if_neg hix]
      exact hvn
  have hg2v : ((updCell w h (updCell w h grid cx cy f_c) nx ny f_n).getD
      (ny.toNat * w + nx.toNat) {}).visited = false := by
    rw [updCell_in_range _ f_n hnx0 hnxw hny0 hnyh,
      list_getD_set _ _ _ _ _ hidxN1, if_pos rfl, hfn]
    exact hg1v
  have hu1 : (updCell w h grid cx cy f_c).countP (fun c => !c.visited)
      = grid.countP (fun c => !c.visited) := by
    rw [updCell_in_range grid f_c hcx0 hcxw hcy0 hcyh]
    apply countP_set_of_eq _ _ _ _ hidxC
    rw [hfc, List.getD_eq_getElem grid {} hidxC]
  have hu2 : (updCell w h (updCell w h grid cx cy f_c) nx ny f_n).countP (fun c => !c.visited)
      = (updCell w h grid cx cy f_c).countP (fun c => !c.visited) := by
    rw [updCell_in_range _ f_n hnx0 hnxw hny0 hnyh]
    apply countP_set_of_eq _ _ _ _ hidxN1
    rw [hfn, List.getD_eq_getElem _ {} hidxN1]
  have hu3 : (updCell w h (updCell w h (updCell w h grid cx cy f_c) nx ny f_n) nx ny
      (fun c => { c with visited := true })).countP (fun c => !c.visited) + 1
      = (updCell w h (updCell w h grid cx cy f_c) nx ny f_n).countP (fun c => !c.visited) := by
    rw [updCell_in_range _ _ hnx0 hnxw hny0 hnyh]
    apply countP_set_dec _ _ _ _ hidxN2
    · rw [List.getD_eq_getElem _ {} hidxN2] at hg2v
      simp [hg2v]
    · simp
  rw [unvisitedCount, unvisitedCount, hu3, hu2, hu1]

theorem carve_push_east (w h : ℕ) (grid : List Cell) (stack : List (ℤ × ℤ)) (cx cy : ℤ)
    (inv : GenInv w h grid ((cx, cy) :: stack))
    (hn : inGrid w h (cx + 1, cy)) (hnv : ¬visC w h grid (cx + 1, cy)) :
    GenInv w h
      (updCell w h (carveWalls w h grid cx cy (cx + 1) cy) (cx + 1) cy
        (fun c => { c with visited := true })) ((cx + 1, cy) :: (cx, cy) :: stack) ∧
    unvisitedCount (updCell w h (carveWalls w h grid cx cy (cx + 1) cy) (cx + 1) cy
        (fun c => { c with visited := true })) + 1 = unvisitedCount grid := by
  have hc : inGrid w h (cx, cy) := inv.stackIn _ (List.mem_cons_self _ _)
  have hcw : carveWalls w h grid cx cy (cx + 1) cy =
      updCell w h (updCell w h grid cx cy (fun c => { c with wE := false })) (cx + 1) cy
        (fun c => { c with wW := false }) := by
    rw [carveWalls, if_pos (by omega : cx + 1 > cx)]
  rw [hcw]
  obtain ⟨hlen3, hcells⟩ := carve_cell_eqs grid (fun c => { c with wE := false })
    (fun c => { c with wW := false }) inv.len hc hn (by omega)
  constructor
  · apply genInv_push w h grid _ stack cx cy (cx + 1) cy inv hn hnv (Or.inl ⟨rfl, rfl⟩) hlen3
    · -- hvis
      intro p hp
      have hp2 : inGrid w h (p.1, p.2) := hp
      simp only [visC]
      rw [hcells p.1 p.2 hp2, Prod.ext_iff]
      by_cases h1 : p.1 = cx + 1 ∧ p.2 = cy
      · rw [if_pos h1]
        simp [h1.1, h1.2]
      · rw [if_neg h1]
        by_cases h2 : p.1 = cx ∧ p.2 = cy
        · rw [if_pos h2]
          simp only [Prod.fst, Prod.snd] at h1
          constructor
          · intro hv
            refine Or.inl ?_
            rw [h2.1, h2.2]
            simpa using hv
          · intro hv
            rcases hv with hv | hv
            · rw [h2.1, h2.2] at hv
              simpa using hv
            · exact absurd ⟨by simpa using hv.1, by simpa using hv.2⟩ h1
        · rw [if_neg h2]
          constructor
          · intro hv
            exact Or.inl hv
          · intro hv
            rcases hv with hv | hv
            · exact hv
            · exact absurd ⟨by simpa using hv.1, by simpa using hv.2⟩ h1
    · -- hEiff
      intro x y hxy
      rw [hcells x y hxy]
      by_cases h1 : x = cx + 1 ∧ y = cy
      · rw [if_pos h1]
        obtain ⟨rfl, rfl⟩ := h1
        simp only [Prod.mk.injEq]
        constructor
        · intro hv
          exact Or.inl (by simpa using hv)
        · intro hv
          rcases hv with hv | hv | hv
          · simpa using hv
          · omega
          · omega
      · rw [if_neg h1]
        by_cases h2 : x = cx ∧ y = cy
        · rw [if_pos h2]
          obtain ⟨rfl, rfl⟩ := h2
          simp
        · rw [if_neg h2]
          simp only [Prod.mk.injEq]
          constructor
          · intro hv
            exact Or.inl hv
          · intro hv
            rcases hv with hv | hv | hv
            · exact hv
            · exact absurd ⟨hv.1.1, hv.1.2⟩ h2
            · exact absurd ⟨by omega, by omega⟩ h1
    · -- hSiff
      intro x y hxy
      rw [hcells x y hxy]
      by_cases h1 : x = cx + 1 ∧ y = cy
      · rw [if_pos h1]
        obtain ⟨rfl, rfl⟩ := h1
        simp only [Prod.mk.injEq]
        constructor
        · intro hv
          exact Or.inl (by simpa using hv)
        · intro hv
          rcases hv with hv | hv | hv
          · simpa using hv
          · omega
          · omega
      · rw [if_neg h1]
        by_cases h2 : x = cx ∧ y = cy
        · rw [if_pos h2]
          obtain ⟨rfl, rfl⟩ := h2
          simp only [Prod.mk.injEq]
          constructor
          · intro hv
            exact Or.inl (by simpa using hv)
          · intro hv
            rcases hv with hv | hv | hv
            · simpa using hv
            · omega
            · omega
        · rw [if_neg h2]
          simp only [Prod.mk.injEq]
          constructor
          · intro hv
            exact Or.inl hv
          · intro hv
            rcases hv with hv | hv | hv
            · exact hv
            · exact absurd ⟨hv.1.1, hv.1.2⟩ h2
            · exact absurd ⟨by omega, by omega⟩ h1
  · exact carve_unvisited_dec grid _ _ (fun c => rfl) (fun c => rfl) inv.len hc hn hnv

theorem carve_push_west (w h : ℕ) (grid : List Cell) (stack : List (ℤ × ℤ)) (cx cy : ℤ)
    (inv : GenInv w h grid ((cx, cy) :: stack))
    (hn : inGrid w h (cx - 1, cy)) (hnv : ¬visC w h grid (cx - 1, cy)) :
    GenInv w h
      (updCell w h (carveWalls w h grid cx cy (cx - 1) cy) (cx - 1) cy
        (fun c => { c with visited := true })) ((cx - 1, cy) :: (cx, cy) :: stack) ∧
    unvisitedCount (updCell w h (carveWalls w h grid cx cy (cx - 1) cy) (cx - 1) cy
        (fun c => { c with visited := true })) + 1 = unvisitedCount grid := by
  have hc : inGrid w h (cx, cy) := inv.stackIn _ (List.mem_cons_self _ _)
  have hcw : carveWalls w h grid cx cy (cx - 1) cy =
      updCell w h (updCell w h grid cx cy (fun c => { c with wW := false })) (cx - 1) cy
        (fun c => { c with wE := false }) := by
    rw [carveWalls, if_neg (by omega : ¬cx - 1 > cx), if_pos (by omega : cx - 1 < cx)]
  rw [hcw]
  obtain ⟨hlen3, hcells⟩ := carve_cell_eqs grid (fun c => { c with wW := false })
    (fun c => { c with wE := false }) inv.len hc hn (by omega)
  constructor
  · apply genInv_push w h grid _ stack cx cy (cx - 1) cy inv hn hnv
      (Or.inr (Or.inl ⟨by omega, rfl⟩)) hlen3
    · -- hvis
      intro p hp
      have hp2 : inGrid w h (p.1, p.2) := hp
      simp only [visC]
      rw [hcells p.1 p.2 hp2, Prod.ext_iff]
      by_cases h1 : p.1 = cx - 1 ∧ p.2 = cy
      · rw [if_pos h1]
        simp [h1.1, h1.2]
      · rw [if_neg h1]
        by_cases h2 : p.1 = cx ∧ p.2 = cy
        · rw [if_pos h2]
          simp only [Prod.fst, Prod.snd] at h1
          constructor
          · intro hv
            refine Or.inl ?_
            rw [h2.1, h2.2]
            simpa using hv
          · intro hv
            rcases hv with hv | hv
            · rw [h2.1, h2.2] at hv
              simpa using hv
            · exact absurd ⟨by simpa using hv.1, by simpa using hv.2⟩ h1
        · rw [if_neg h2]
          constructor
          · intro hv
            exact Or.inl hv
          · intro hv
            rcases hv with hv | hv
            · exact hv
            · exact absurd ⟨by simpa using hv.1, by simpa using hv.2⟩ h1
    · -- hEiff : the cleared east wall sits on the western cell (cx-1, cy)
      intro x y hxy
      rw [hcells x y hxy]
      by_cases h1 : x = cx - 1 ∧ y = cy
      · rw [if_pos h1]
        obtain ⟨rfl, rfl⟩ := h1
        constructor
        · intro hv
          refine Or.inr (Or.inr ⟨rfl, ?_⟩)
          rw [Prod.mk.injEq]
          omega
        · intro hv
          simp
      · rw [if_neg h1]
        by_cases h2 : x = cx ∧ y = cy
        · rw [if_pos h2]
          obtain ⟨rfl, rfl⟩ := h2
          simp only [Prod.mk.injEq]
          constructor
          · intro hv
            exact Or.inl (by simpa using hv)
          · intro hv
            rcases hv with hv | hv | hv
            · simpa using hv
            · omega
            · omega
        · rw [if_neg h2]
          simp only [Prod.mk.injEq]
          constructor
          · intro hv
            exact Or.inl hv
          · intro hv
            rcases hv with hv | hv | hv
            · exact hv
            · exact absurd ⟨hv.1.1, hv.1.2⟩ h2
            · exact absurd ⟨by omega, by omega⟩ h1
    · -- hSiff : no south wall changes
      intro x y hxy
      rw [hcells x y hxy]
      by_cases h1 : x = cx - 1 ∧ y = cy
      · rw [if_pos h1]
        obtain ⟨rfl, rfl⟩ := h1
        simp only [Prod.mk.injEq]
        constructor
        · intro hv
          exact Or.inl (by simpa using hv)
        · intro hv
          rcases hv with hv | hv | hv
          · simpa using hv
          · omega
          · omega
      · rw [if_neg h1]
        by_cases h2 : x = cx ∧ y = cy
        · rw [if_pos h2]
          obtain ⟨rfl, rfl⟩ := h2
          simp only [Prod.mk.injEq]
          constructor
          · intro hv
            exact Or.inl (by simpa using hv)
          · intro hv
            rcases hv with hv | hv | hv
            · simpa using hv
            · omega
            · omega
        · rw [if_neg h2]
          simp only [Prod.mk.injEq]
          constructor
          · intro hv
            exact Or.inl hv
          · intro hv
            rcases hv with hv | hv | hv
            · exact hv
            · exact absurd ⟨hv.1.1, hv.1.2⟩ h2
            · exact absurd ⟨by omega, by omega⟩ h1
  · exact carve_unvisited_dec grid _ _ (fun c => rfl) (fun c => rfl) inv.len hc hn hnv

theorem carve_push_south (w h : ℕ) (grid : List Cell) (stack : List (ℤ × ℤ)) (cx cy : ℤ)
    (inv : GenInv w h grid ((cx, cy) :: stack))
    (hn : inGrid w h (cx, cy + 1)) (hnv : ¬visC w h grid (cx, cy + 1)) :
    GenInv w h
      (updCell w h (carveWalls w h grid cx cy cx (cy + 1)) cx (cy + 1)
        (fun c => { c with visited := true })) ((cx, cy + 1) :: (cx, cy) :: stack) ∧
    unvisitedCount (updCell w h (carveWalls w h grid cx cy cx (cy + 1)) cx (cy + 1)
        (fun c => { c with visited := true })) + 1 = unvisitedCount grid := by
  have hc : inGrid w h (cx, cy) := inv.stackIn _ (List.mem_cons_self _ _)
  have hcw : carveWalls w h grid cx cy cx (cy + 1) =
      updCell w h (updCell w h grid cx cy (fun c => { c with wS := false })) cx (cy + 1)
        (fun c => { c with wN := false }) := by
    rw [carveWalls, if_neg (by omega : ¬cx > cx), if_neg (by omega : ¬cx < cx),
      if_pos (by omega : cy + 1 > cy)]
  rw [hcw]
  obtain ⟨hlen3, hcells⟩ := carve_cell_eqs grid (fun c => { c with wS := false })
    (fun c => { c with wN := false }) inv.len hc hn (by omega)
  constructor
  · apply genInv_push w h grid _ stack cx cy cx (cy + 1) inv hn hnv
      (Or.inr (Or.inr (Or.inl ⟨rfl, rfl⟩))) hlen3
    · -- hvis
      intro p hp
      have hp2 : inGrid w h (p.1, p.2) := hp
      simp only [visC]
      rw [hcells p.1 p.2 hp2, Prod.ext_iff]
      by_cases h1 : p.1 = cx ∧ p.2 = cy + 1
      · rw [if_pos h1]
        simp [h1.1, h1.2]
      · rw [if_neg h1]
        by_cases h2 : p.1 = cx ∧ p.2 = cy
        · rw [if_pos h2]
          simp only [Prod.fst, Prod.snd] at h1
          constructor
          · intro hv
            refine Or.inl ?_
            rw [h2.1, h2.2]
            simpa using hv
          · intro hv
            rcases hv with hv | hv
            · rw [h2.1, h2.2] at hv
              simpa using hv
            · exact absurd ⟨by simpa using hv.1, by simpa using hv.2⟩ h1
        · rw [if_neg h2]
          constructor
          · intro hv
            exact Or.inl hv
          · intro hv
            rcases hv with hv | hv
            · exact hv
            · exact absurd ⟨by simpa using hv.1, by simpa using hv.2⟩ h1
    · -- hEiff : no east wall changes
      intro x y hxy
      rw [hcells x y hxy]
      by_cases h1 : x = cx ∧ y = cy + 1
      · rw [if_pos h1]
        obtain ⟨rfl, rfl⟩ := h1
        simp only [Prod.mk.injEq]
        constructor
        · intro hv
          exact Or.inl (by simpa using hv)
        · intro hv
          rcases hv with hv | hv | hv
          · simpa using hv
          · omega
          · omega
      · rw [if_neg h1]
        by_cases h2 : x = cx ∧ y = cy
        · rw [if_pos h2]
          obtain ⟨rfl, rfl⟩ := h2
          simp only [Prod.mk.injEq]
          constructor
          · intro hv
            exact Or.inl (by simpa using hv)
          · intro hv
            rcases hv with hv | hv | hv
            · simpa using hv
            · omega
            · omega
        · rw [if_neg h2]
          simp only [Prod.mk.injEq]
          constructor
          · intro hv
            exact Or.inl hv
          · intro hv
            rcases hv with hv | hv | hv
            · exact hv
            · exact absurd ⟨hv.1.1, hv.1.2⟩ h2
            · exact absurd ⟨by omega, by omega⟩ h1
    · -- hSiff : the cleared south wall sits on the current cell
      intro x y hxy
      rw [hcells x y hxy]
      by_cases h1 : x = cx ∧ y = cy + 1
      · rw [if_pos h1]
        obtain ⟨rfl, rfl⟩ := h1
        simp only [Prod.mk.injEq]
        constructor
        · intro hv
          exact Or.inl (by simpa using hv)
        · intro hv
          rcases hv with hv | hv | hv
          · simpa using hv
          · omega
          · omega
      · rw [if_neg h1]
        by_cases h2 : x = cx ∧ y = cy
        · rw [if_pos h2]
          obtain ⟨rfl, rfl⟩ := h2
          simp
        · rw [if_neg h2]
          simp only [Prod.mk.injEq]
          constructor
          · intro hv
            exact Or.inl hv
          · intro hv
            rcases hv with hv | hv | hv
            · exact hv
            · exact absurd ⟨hv.1.1, hv.1.2⟩ h2
            · exact absurd ⟨by omega, by omega⟩ h1
  · exact carve_unvisited_dec grid _ _ (fun c => rfl) (fun c => rfl) inv.len hc hn hnv

theorem carve_push_north (w h : ℕ) (grid : List Cell) (stack : List (ℤ × ℤ)) (cx cy : ℤ)
    (inv : GenInv w h grid ((cx, cy) :: stack))
    (hn : inGrid w h (cx, cy - 1)) (hnv : ¬visC w h grid (cx, cy - 1)) :
    GenInv w h
      (updCell w h (carveWalls w h grid cx cy cx (cy - 1)) cx (cy - 1)
        (fun c => { c with visited := true })) ((cx, cy - 1) :: (cx, cy) :: stack) ∧
    unvisitedCount (updCell w h (carveWalls w h grid cx cy cx (cy - 1)) cx (cy - 1)
        (fun c => { c with visited := true })) + 1 = unvisitedCount grid := by
  have hc : inGrid w h (cx, cy) := inv.stackIn _ (List.mem_cons_self _ _)
  have hcw : carveWalls w h grid cx cy cx (cy - 1) =
      updCell w h (updCell w h grid cx cy (fun c => { c with wN := false })) cx (cy - 1)
        (fun c => { c with wS := false }) := by
    rw [carveWalls, if_neg (by omega : ¬cx > cx), if_neg (by omega : ¬cx < cx),
      if_neg (by omega : ¬cy - 1 > cy), if_pos (by omega : cy - 1 < cy)]
  rw [hcw]
  obtain ⟨hlen3, hcells⟩ := carve_cell_eqs grid (fun c => { c with wN := false })
    (fun c => { c with wS := false }) inv.len hc hn (by omega)
  constructor
  · apply genInv_push w h grid _ stack cx cy cx (cy - 1) inv hn hnv
      (Or.inr (Or.inr (Or.inr ⟨by omega, rfl⟩))) hlen3
    · -- hvis
      intro p hp
      have hp2 : inGrid w h (p.1, p.2) := hp
      simp only [visC]
      rw [hcells p.1 p.2 hp2, Prod.ext_iff]
      by_cases h1 : p.1 = cx ∧ p.2 = cy - 1
      · rw [if_pos h1]
        simp [h1.1, h1.2]
      · rw [if_neg h1]
        by_cases h2 : p.1 = cx ∧ p.2 = cy
        · rw [if_pos h2]
          simp only [Prod.fst, Prod.snd] at h1
          constructor
          · intro hv
            refine Or.inl ?_
            rw [h2.1, h2.2]
            simpa using hv
          · intro hv
            rcases hv with hv | hv
            · rw [h2.1, h2.2] at hv
              simpa using hv
            · exact absurd ⟨by simpa using hv.1, by simpa using hv.2⟩ h1
        · rw [if_neg h2]
          constructor
          · intro hv
            exact Or.inl hv
          · intro hv
            rcases hv with hv | hv
            · exact hv
            · exact absurd ⟨by simpa using hv.1, by simpa using hv.2⟩ h1
    · -- hEiff : no east wall changes
      intro x y hxy
      rw [hcells x y hxy]
      by_cases h1 : x = cx ∧ y = cy - 1
      · rw [if_pos h1]
        obtain ⟨rfl, rfl⟩ := h1
        simp only [Prod.mk.injEq]
        constructor
        · intro hv
          exact Or.inl (by simpa using hv)
        · intro hv
          rcases hv with hv | hv | hv
          · simpa using hv
          · omega
          · omega
      · rw [if_neg h1]
        by_cases h2 : x = cx ∧ y = cy
        · rw [if_pos h2]
          obtain ⟨rfl, rfl⟩ := h2
          simp only [Prod.mk.injEq]
          constructor
          · intro hv
            exact Or.inl (by simpa using hv)
          · intro hv
            rcases hv with hv | hv | hv
            · simpa using hv
            · omega
            · omega
        · rw [if_neg h2]
          simp only [Prod.mk.injEq]
          constructor
          · intro hv
            exact Or.inl hv
          · intro hv
            rcases hv with hv | hv | hv
            · exact hv
            · exact absurd ⟨hv.1.1, hv.1.2⟩ h2
            · exact absurd ⟨by omega, by omega⟩ h1
    · -- hSiff : the cleared south wall sits on the northern cell (cx, cy-1)
      intro x y hxy
      rw [hcells x y hxy]
      by_cases h1 : x = cx ∧ y = cy - 1
      · rw [if_pos h1]
        obtain ⟨rfl, rfl⟩ := h1
        constructor
        · intro hv
          refine Or.inr (Or.inr ⟨rfl, ?_⟩)
          rw [Prod.mk.injEq]
          omega
        · intro hv
          simp
      · rw [if_neg h1]
        by_cases h2 : x = cx ∧ y = cy
        · rw [if_pos h2]
          obtain ⟨rfl, rfl⟩ := h2
          simp only [Prod.mk.injEq]
          constructor
          · intro hv
            exact Or.inl (by simpa using hv)
          · intro hv
            rcases hv with hv | hv | hv
            · simpa using hv
            · omega
            · omega
        · rw [if_neg h2]
          simp only [Prod.mk.injEq]
          constructor
          · intro hv
            exact Or.inl hv
          · intro hv
            rcases hv with hv | hv | hv
            · exact hv
            · exact absurd ⟨hv.1.1, hv.1.2⟩ h2
            · exact absurd ⟨by omega, by omega⟩ h1
  · exact carve_unvisited_dec grid _ _ (fun c => rfl) (fun c => rfl) inv.len hc hn hnv

theorem genInv_pop {w h : ℕ} {grid : List Cell} {cx cy : ℤ} {rest : List (ℤ × ℤ)}
    (inv : GenInv w h grid ((cx, cy) :: rest))
    (hz : (unvisitedNeighbors w h grid cx cy).length = 0) :
    GenInv w h grid rest := by
  refine ⟨inv.len, inv.rootVis, ?_, ?_, ?_, ?_, inv.wallsE, inv.wallsS, inv.reach, inv.acyc⟩
  · intro p hp
    exact inv.stackIn p (List.mem_cons_of_mem _ hp)
  · intro p hp
    exact inv.stackVis p (List.mem_cons_of_mem _ hp)
  · exact inv.stackNd.of_cons
  · intro p hpin hpv hpns d hd hdin
    by_cases hpc : p = (cx, cy)
    · subst hpc
      exact unvisitedNeighbors_nil hz d hd hdin
    · refine inv.offStack p hpin hpv ?_ d hd hdin
      simp only [List.mem_cons, not_or]
      exact ⟨hpc, hpns⟩

theorem genLoop_spec (rng : ℕ → ℕ) (w h : ℕ) (fuel : ℕ) :
    ∀ (grid : List Cell) (stack : List (ℤ × ℤ)) (k : ℕ),
      GenInv w h grid stack →
      2 * unvisitedCount grid + stack.length ≤ fuel →
      GenInv w h (genLoop rng w h fuel grid stack k) [] := by
  induction fuel with
  | zero =>
    intro grid stack k inv hfuel
    have hs : stack = [] := List.length_eq_zero.mp (by omega)
    subst hs
    simpa only [genLoop] using inv
  | succ f ih =>
    intro grid stack k inv hfuel
    rcases stack with _ | ⟨⟨cx, cy⟩, rest⟩
    · simpa only [genLoop] using inv
    · simp only [genLoop]
      have hflen : ((cx, cy) :: rest).length = rest.length + 1 := List.length_cons _ _
      rw [hflen] at hfuel
      by_cases hz : (unvisitedNeighbors w h grid cx cy).length = 0
      · rw [if_pos hz]
        refine ih grid rest k (genInv_pop inv hz) (by omega)
      · rw [if_neg hz]
        obtain ⟨d, hd, hpd, hin, hnv⟩ :=
          mem_unvisitedNeighbors
            (getD_mod_mem (unvisitedNeighbors w h grid cx cy) (rng k) (cx, cy) hz)
        simp only [mazeDirs, List.mem_cons, List.not_mem_nil, or_false] at hd
        rcases hd with rfl | rfl | rfl | rfl
        · -- direction (0, 1): carve towards the southern neighbour
          rw [hpd] at hin hnv ⊢
          dsimp only at hin hnv ⊢
          simp only [add_zero] at hin hnv ⊢
          obtain ⟨hinv2, hcnt⟩ := carve_push_south w h grid rest cx cy inv hin hnv
          refine ih _ _ (k + 1) hinv2 ?_
          simp only [List.length_cons]
          omega
        · -- direction (1, 0): carve towards the eastern neighbour
          rw [hpd] at hin hnv ⊢
          dsimp only at hin hnv ⊢
          simp only [add_zero] at hin hnv ⊢
          obtain ⟨hinv2, hcnt⟩ := carve_push_east w h grid rest cx cy inv hin hnv
          refine ih _ _ (k + 1) hinv2 ?_
          simp only [List.length_cons]
          omega
        · -- direction (0, -1): carve towards the northern neighbour
          rw [hpd] at hin hnv ⊢
          dsimp only at hin hnv ⊢
          simp only [add_zero, ← sub_eq_add_neg] at hin hnv ⊢
          obtain ⟨hinv2, hcnt⟩ := carve_push_north w h grid rest cx cy inv hin hnv
          refine ih _ _ (k + 1) hinv2 ?_
          simp only [List.length_cons]
          omega
        · -- direction (-1, 0): carve towards the western neighbour
          rw [hpd] at hin hnv ⊢
          dsimp only at hin hnv ⊢
          simp only [add_zero, ← sub_eq_add_neg] at hin hnv ⊢
          obtain ⟨hinv2, hcnt⟩ := carve_push_west w h grid rest cx cy inv hin hnv
          refine ih _ _ (k + 1) hinv2 ?_
          simp only [List.length_cons]
          omega

theorem getD_replicate {α : Type} (n i : ℕ) (a : α) :
    (List.replicate n a).getD i a = a := by
  induction n generalizing i with
  | zero => simp [List.getD_nil]
  | succ m ih =>
    rcases i with _ | j
    · simp [List.replicate_succ]
    · simp [List.replicate_succ, ih j]

theorem cellG_replicate (w h : ℕ) (x y : ℤ) :
    cellG w h (List.replicate (w * h) ({} : Cell)) x y = {} := by
  simp only [cellG]
  exact getD_replicate _ _ _

theorem genInv_init {w h : ℕ} (hw : 1 ≤ w) (hh : 1 ≤ h) :
    GenInv w h (updCell w h (List.replicate (w * h) ({} : Cell)) 0 0
      (fun c => { c with visited := true })) [(0, 0)] := by
  have h00 : inGrid w h ((0 : ℤ), (0 : ℤ)) := by
    simp only [inGrid]
    omega
  have hlenr : (List.replicate (w * h) ({} : Cell)).length = w * h :=
    List.length_replicate _ _
  have hcell : ∀ x y : ℤ, inGrid w h (x, y) →
      cellG w h (updCell w h (List.replicate (w * h) ({} : Cell)) 0 0
        (fun c => { c with visited := true })) x y =
      if x = 0 ∧ y = 0 then { ({} : Cell) with visited := true } else ({} : Cell) := by
    intro x y hxy
    rw [cellG_updCell _ _ hlenr h00 hxy]
    simp only [cellG_replicate]
  have hvis_only : ∀ p : ℤ × ℤ, inGrid w h p →
      visC w h (updCell w h (List.replicate (w * h) ({} : Cell)) 0 0
        (fun c => { c with visited := true })) p → p = (0, 0) := by
    intro p hp hpv
    have hp2 : inGrid w h (p.1, p.2) := hp
    simp only [visC] at hpv
    rw [hcell p.1 p.2 hp2] at hpv
    by_cases hp0 : p.1 = 0 ∧ p.2 = 0
    · exact Prod.ext_iff.mpr hp0
    · rw [if_neg hp0] at hpv
      exact absurd hpv (by decide)
  refine ⟨?_, ?_, ?_, ?_, ?_, ?_, ?_, ?_, ?_, ?_⟩
  · rw [length_updCell, hlenr]
  · simp only [visC]
    rw [hcell 0 0 h00, if_pos ⟨rfl, rfl⟩]
  · intro p hp
    rw [List.mem_singleton] at hp
    subst hp
    exact h00
  · intro p hp
    rw [List.mem_singleton] at hp
    subst hp
    simp only [visC]
    rw [hcell 0 0 h00, if_pos ⟨rfl, rfl⟩]
  · exact List.nodup_singleton _
  · intro p hpin hpv hpns d hd hdin
    exact absurd (List.mem_singleton.mpr (hvis_only p hpin hpv)) hpns
  · intro x y hxy hE
    exfalso
    rw [hcell x y hxy] at hE
    by_cases h0 : x = 0 ∧ y = 0
    · rw [if_pos h0] at hE
      exact absurd hE (by decide)
    · rw [if_neg h0] at hE
      exact absurd hE (by decide)
  · intro x y hxy hS
    exfalso
    rw [hcell x y hxy] at hS
    by_cases h0 : x = 0 ∧ y = 0
    · rw [if_pos h0] at hS
      exact absurd hS (by decide)
    · rw [if_neg h0] at hS
      exact absurd hS (by decide)
  · intro p hpin hpv
    rw [hvis_only p hpin hpv]
    exact Relation.ReflTransGen.refl
  · intro v c hc
    obtain ⟨y2, hadj, p2, hpdef⟩ := SimpleGraph.Walk.not_nil_iff.mp hc.not_nil
    rcases hadj with ⟨h1, h2, h3⟩ | ⟨h1, h2, h3⟩ | ⟨h1, h2, h3⟩ | ⟨h1, h2, h3⟩
    · rw [hcell _ _ (vertex_inGrid v)] at h3
      split at h3 <;> exact absurd h3 (by decide)
    · rw [hcell _ _ (vertex_inGrid y2)] at h3
      split at h3 <;> exact absurd h3 (by decide)
    · rw [hcell _ _ (vertex_inGrid v)] at h3
      split at h3 <;> exact absurd h3 (by decide)
    · rw [hcell _ _ (vertex_inGrid y2)] at h3
      split at h3 <;> exact absurd h3 (by decide)

theorem generate_genInv (rng : ℕ → ℕ) (width height : ℕ) (sw sh wt : ℚ)
    (hw : 1 ≤ width) (hh : 1 ≤ height) :
    GenInv width height ((Maze.mk0 width height sw sh wt).generate rng).grid [] := by
  show GenInv width height (genLoop rng width height (2 * width * height + 1)
      (updCell width height (List.replicate (width * height) ({} : Cell)) 0 0
        (fun c => { c with visited := true })) [(0, 0)] 0) []
  apply genLoop_spec rng width height _ _ _ 0 (genInv_init hw hh)
  have hcount : unvisitedCount (updCell width height
      (List.replicate (width * height) ({} : Cell)) 0 0
      (fun c => { c with visited := true })) ≤ width * height := by
    rw [unvisitedCount]
    calc (updCell width height (List.replicate (width * height) ({} : Cell)) 0 0
          (fun c => { c with visited := true })).countP (fun c => !c.visited)
        ≤ (updCell width height (List.replicate (width * height) ({} : Cell)) 0 0
          (fun c => { c with visited := true })).length := List.countP_le_length _
      _ = width * height := by rw [length_updCell, List.length_replicate]
  have hassoc : 2 * width * height = 2 * (width * height) := Nat.mul_assoc 2 width height
  simp only [List.length_cons, List.length_nil]
  omega

theorem genInv_all_visited {w h : ℕ} {grid : List Cell} (inv : GenInv w h grid []) :
    ∀ p : ℤ × ℤ, inGrid w h p → visC w h grid p := by
  have key : ∀ n : ℕ, ∀ x y : ℤ, inGrid w h (x, y) → x + y = (n : ℤ) →
      visC w h grid (x, y) := by
    intro n
    induction n with
    | zero =>
      intro x y hxy hsum
      obtain ⟨h1, h2, h3, h4⟩ := hxy
      simp only at h1 h2 h3 h4
      have hx0 : x = 0 := by omega
      have hy0 : y = 0 := by omega
      subst hx0
      subst hy0
      exact inv.rootVis
    | succ n ih =>
      intro x y hxy hsum
      obtain ⟨h1, h2, h3, h4⟩ := hxy
      simp only at h1 h2 h3 h4
      by_cases hx : 0 < x
      · have hq : inGrid w h (x - 1, y) := by
          simp only [inGrid]
          omega
        have hqv := ih (x - 1) y hq (by omega)
        have hstep := inv.offStack (x - 1, y) hq hqv (List.not_mem_nil _) (1, 0)
          (by simp [mazeDirs]) (by simp only [inGrid]; omega)
        simpa using hstep
      · have hq : inGrid w h (x, y - 1) := by
          simp only [inGrid]
          omega
        have hqv := ih x (y - 1) hq (by omega)
        have hstep := inv.offStack (x, y - 1) hq hqv (List.not_mem_nil _) (0, 1)
          (by simp [mazeDirs]) (by simp only [inGrid]; omega)
        simpa using hstep
  intro p hp
  have hp2 : inGrid w h (p.1, p.2) := hp
  obtain ⟨h1, h2, h3, h4⟩ := hp
  exact key (p.1 + p.2).toNat p.1 p.2 hp2 (by omega)

theorem reachC_to_reachable {w h : ℕ} {grid : List Cell} {p q : ℤ × ℤ}
    (hr : reachC w h grid p q) :
    ∀ (hp : inGrid w h p) (hq : inGrid w h q),
      (mazeGraph w h grid).Reachable (toV w h p hp) (toV w h q hq) := by
  induction hr with
  | refl =>
    intro hp hq
    exact SimpleGraph.Reachable.refl _
  | tail hab hbc ih =>
    intro hp hq
    obtain ⟨hb, hq2, hdis⟩ := hbc
    exact (ih hp hb).trans
      (SimpleGraph.Adj.reachable (passStep_adj hb hq ⟨hb, hq2, hdis⟩))

theorem genInv_connected {w h : ℕ} {grid : List Cell} (hw : 1 ≤ w) (hh : 1 ≤ h)
    (inv : GenInv w h grid []) : (mazeGraph w h grid).Connected := by
  rw [SimpleGraph.connected_iff]
  constructor
  · intro a b
    have h00 : inGrid w h ((0 : ℤ), (0 : ℤ)) := by
      simp only [inGrid]
      omega
    have hpa := vertex_inGrid a
    have hpb := vertex_inGrid b
    have hva := genInv_all_visited inv _ hpa
    have hvb := genInv_all_visited inv _ hpb
    have hra := reachC_to_reachable (inv.reach _ hpa hva) h00 hpa
    have hrb := reachC_to_reachable (inv.reach _ hpb hvb) h00 hpb
    have hea : toV w h _ hpa = a := ((eq_toV_iff a _ hpa).mpr ⟨rfl, rfl⟩).symm
    have heb : toV w h _ hpb = b := ((eq_toV_iff b _ hpb).mpr ⟨rfl, rfl⟩).symm
    rw [hea] at hra
    rw [heb] at hrb
    exact hra.symm.trans hrb
  · exact ⟨(⟨0, by omega⟩, ⟨0, by omega⟩)⟩

/-- C3: for every width `W ≥ 1` and height `H ≥ 1`, after `Maze::generate`
terminates every cell is visited, every cell is flood-fill reachable over
open passages from `(0,0)`, and the graph of open passages is a spanning
tree of the `W × H` grid (connected and acyclic, hence no loops and no
isolated regions), for every stream of `std::rand()` values. -/
theorem maze_generate_spanning_tree (rng : ℕ → ℕ) (width height : ℕ) (sw sh wt : ℚ)
    (hw : 1 ≤ width) (hh : 1 ≤ height) :
    (∀ p : ℤ × ℤ, inGrid width height p →
      visC width height ((Maze.mk0 width height sw sh wt).generate rng).grid p) ∧
    (∀ p : ℤ × ℤ, inGrid width height p →
      reachC width height ((Maze.mk0 width height sw sh wt).generate rng).grid (0, 0) p) ∧
    ((Maze.mk0 width height sw sh wt).generate rng).passageGraph.IsTree := by
  have hinv : GenInv width height ((Maze.mk0 width height sw sh wt).generate rng).grid [] :=
    generate_genInv rng width height sw sh wt hw hh
  refine ⟨genInv_all_visited hinv, ?_, ?_⟩
  · intro p hp
    exact hinv.reach p hp (genInv_all_visited hinv p hp)
  · exact ⟨genInv_connected hw hh hinv, hinv.acyc⟩

theorem maze_generate_spanning_tree_witness :
    ((1 : ℕ) ≤ 2 ∧ (1 : ℕ) ≤ 3) ∧
    ((∀ p : ℤ × ℤ, inGrid 2 3 p →
        visC 2 3 ((Maze.mk0 2 3 1 1 0).generate (fun _ => 0)).grid p) ∧
     (∀ p : ℤ × ℤ, inGrid 2 3 p →
        reachC 2 3 ((Maze.mk0 2 3 1 1 0).generate (fun _ => 0)).grid (0, 0) p) ∧
     ((Maze.mk0 2 3 1 1 0).generate (fun _ => 0)).passageGraph.IsTree) :=
  ⟨⟨by decide, by decide⟩,
   maze_generate_spanning_tree (fun _ => 0) 2 3 1 1 0 (by decide) (by decide)⟩

/-- C9: the generated wall flags are not a function of the caller-visible
inputs alone: two runs of `Maze::generate` on the same maze differ when the
internal `std::rand()` stream differs.  The code reseeds with
`std::srand(std::time(0))` inside `generate` itself, so the stream is
determined by the wall clock and no caller-fixed seed makes two runs
reproduce the same per-cell wall flags. -/
theorem maze_generate_seed_dependent :
    (Maze.generate (fun _ => 0) (Maze.mk0 2 2 1 1 0)).grid ≠
    (Maze.generate (fun _ => 1) (Maze.mk0 2 2 1 1 0)).grid := by
  decide
